import Mathlib

/-!
Verification of the EchoQuest maze/audio core.

The development embeds the two `GameLogic` variants of the repository
(the randomized-DFS maze version, namespace `GL1`, and the fixed
corridor-carve version, namespace `GL2`) together with the cached-buffer
audio front end, and proves or refutes the frozen behavioural claims
about them.

Embedding conventions:
* JS `number[][]` grids become `List (List Nat)` indexed as `maze[y][x]`;
  reads out of range return `2`, a value that is neither `CELL_EMPTY` nor
  `CELL_WALL`, mirroring the fact that a JS `undefined` read compares
  unequal to both cell constants (every read in the source is guarded, so
  the default is never observable on the source's own executions).
* JS positions are pairs of `Int` (coordinates may go negative before the
  bounds checks fire).
* `Math.random()`-driven choices are modelled by an explicit stream
  `rng : Nat -> Nat` consumed at a running counter; `rng c % k` plays the
  role of `Math.floor(Math.random() * k)`.
* The two `while` loops of the source (maze carving, BFS) are embedded
  with an explicit fuel argument so that they stay structurally
  recursive and kernel-computable; in each case a lemma shows the chosen
  fuel dominates a strictly decreasing measure of the loop state, so the
  embedded function computes the loop's true fixpoint on every state the
  source can reach.
* The JS stack/queue arrays are Lean lists; the stack keeps its top at
  the list head, the BFS queue keeps its front at the head and appends
  pushed entries at the tail, exactly matching `push`/`pop`/`shift`.
-/

namespace EchoQuest

/-! ## Grid primitives -/

abbrev Maze := List (List Nat)

def CELL_EMPTY : Nat := 0

def CELL_WALL : Nat := 1

/-- Read `maze[y][x]`; out-of-range reads yield `2` (a stand-in for the JS
`undefined`, unequal to both cell constants). -/
def mread (m : Maze) (x y : Int) : Nat :=
  if 0 ≤ x ∧ 0 ≤ y then ((m.getD y.toNat []).getD x.toNat 2) else 2

/-- Write `maze[y][x] = v` at `Nat` coordinates; out-of-range writes are
dropped (the source never performs one on an execution that completes). -/
def mset (m : Maze) (x y : Nat) (v : Nat) : Maze :=
  m.set y ((m.getD y []).set x v)

/-- Write at `Int` coordinates: negative coordinates store nothing readable
by element access in JS, so they are dropped. -/
def msetI (m : Maze) (x y : Int) (v : Nat) : Maze :=
  if 0 ≤ x ∧ 0 ≤ y then mset m x.toNat y.toNat v else m

/-- `width × height` grid of walls, as built by the initialisation loops. -/
def initialMaze (width height : Nat) : Maze :=
  List.replicate height (List.replicate width CELL_WALL)

/-- `maze[0].length`. -/
def mazeWidth (m : Maze) : Nat := (m.getD 0 []).length

/-- `maze.length`. -/
def mazeHeight (m : Maze) : Nat := m.length

/-- The grid is rectangular: every row has the width of row 0. -/
def Rect (m : Maze) : Prop := ∀ row ∈ m, row.length = mazeWidth m

instance (m : Maze) : Decidable (Rect m) :=
  inferInstanceAs (Decidable (∀ row ∈ m, row.length = mazeWidth m))

/-! ## Positions and directions -/

structure Position where
  x : Int
  y : Int
deriving DecidableEq

inductive Direction where
  | north
  | south
  | east
  | west
deriving DecidableEq

/-- `getNewPosition` of both GameLogic variants. -/
def getNewPosition (p : Position) : Direction → Position
  | .north => ⟨p.x, p.y - 1⟩
  | .south => ⟨p.x, p.y + 1⟩
  | .east => ⟨p.x + 1, p.y⟩
  | .west => ⟨p.x - 1, p.y⟩

/-- `isValidPosition` of both GameLogic variants. -/
def isValidPosition (m : Maze) (p : Position) : Bool :=
  0 ≤ p.x && p.x < (mazeWidth m : Int) && 0 ≤ p.y && p.y < (mazeHeight m : Int)

/-- `getDistance`: the Manhattan distance `|x1-x2| + |y1-y2|`. -/
def getDistance (p1 p2 : Position) : Nat :=
  (p1.x - p2.x).natAbs + (p1.y - p2.y).natAbs

/-! ## Game state and move outcome -/

structure GameState where
  playerPosition : Position
  goalPosition : Position
  maze : Maze
  gameWon : Bool
  moveCount : Nat
deriving DecidableEq

structure MoveOutcome where
  success : Bool
  hitWall : Bool
  isCorrectDirection : Bool
  distanceToGoal : Nat
deriving DecidableEq

/-! ## Breadth-first search (GL1's `getDistanceToGoal`)

The visited matrix is a `List (List Bool)`; the queue is a list whose head
is the front (`shift`) and whose tail end receives pushes. -/

/-- Neighbour offsets in the order scanned by the source: N, S, E, W. -/
def bfsDirs : List (Int × Int) := [(0, -1), (0, 1), (1, 0), (-1, 0)]

def vread (v : List (List Bool)) (x y : Int) : Bool :=
  if 0 ≤ x ∧ 0 ≤ y then ((v.getD y.toNat []).getD x.toNat false) else false

def vset (v : List (List Bool)) (x y : Int) : List (List Bool) :=
  if 0 ≤ x ∧ 0 ≤ y then v.set y.toNat ((v.getD y.toNat []).set x.toNat true) else v

/-- One neighbour check of the BFS inner loop: mark on enqueue. -/
def bfsExpand (m : Maze) (W H : Nat) (x y : Int) (dist : Nat)
    (acc : List (List Bool) × List (Position × Nat)) (d : Int × Int) :
    List (List Bool) × List (Position × Nat) :=
  let nx := x + d.1
  let ny := y + d.2
  if 0 ≤ nx ∧ nx < (W : Int) ∧ 0 ≤ ny ∧ ny < (H : Int) ∧
      mread m nx ny = CELL_EMPTY ∧ vread acc.1 nx ny = false then
    (vset acc.1 nx ny, acc.2 ++ [(⟨nx, ny⟩, dist + 1)])
  else acc

/-- The BFS `while` loop.  Fuel keeps the recursion structural; the
sufficiency lemma below shows the fuel used by `bfsDist` always reaches the
loop's exit, so `none` is never the observed result. -/
def bfsLoopF (m : Maze) (W H : Nat) (goal : Position) :
    Nat → List (List Bool) → List (Position × Nat) → Option Nat
  | 0, _, _ => none
  | _ + 1, _, [] => some 9999
  | fuel + 1, v, (p, dist) :: rest =>
      if p = goal then some dist
      else
        let s := bfsDirs.foldl (bfsExpand m W H p.x p.y dist) (v, rest)
        bfsLoopF m W H goal fuel s.1 s.2

/-- GL1's `getDistanceToGoal` body, abstracted over source and target
(the source method reads them from `this.state`). -/
def bfsDist (m : Maze) (src tgt : Position) : Nat :=
  let W := mazeWidth m
  let H := mazeHeight m
  let v0 := vset (List.replicate H (List.replicate W false)) src.x src.y
  (bfsLoopF m W H tgt (2 * W * H + 2) v0 [(src, 0)]).getD 9999

/-! ## GL1: the randomized-DFS GameLogic (`part_001`) -/

namespace GL1

/-- `width++` when even: the odd coercion applied inside `generateMaze`. -/
def coerceOdd (n : Nat) : Nat := if n % 2 = 0 then n + 1 else n

/-- The initial contents of the mutable `directions` array: N, S, E, W as
2-cell jumps. -/
def dirs0 : List (Int × Int) := [(0, -2), (0, 2), (2, 0), (-2, 0)]

/-- JS destructuring swap `[l[i], l[j]] = [l[j], l[i]]`. -/
def swapAt (l : List (Int × Int)) (i j : Nat) : List (Int × Int) :=
  match l[i]?, l[j]? with
  | some a, some b => (l.set i b).set j a
  | _, _ => l

/-- The Fisher-Yates shuffle of the 4-entry `directions` array, consuming
three random draws at counter positions `c`, `c+1`, `c+2`. -/
def shuffle4 (rng : Nat → Nat) (c : Nat) (dirs : List (Int × Int)) :
    List (Int × Int) :=
  let d3 := swapAt dirs 3 (rng c % 4)
  let d2 := swapAt d3 2 (rng (c + 1) % 3)
  swapAt d2 1 (rng (c + 2) % 2)

/-- The first shuffled direction whose 2-cell jump lands strictly inside the
outer wall ring on a still-WALL cell. -/
def findCarve (m : Maze) (W H : Nat) (x y : Int) (dirs : List (Int × Int)) :
    Option (Int × Int) :=
  dirs.find? fun d =>
    decide (0 < x + d.1 ∧ x + d.1 < (W : Int) - 1 ∧ 0 < y + d.2 ∧
      y + d.2 < (H : Int) - 1 ∧ mread m (x + d.1) (y + d.2) = CELL_WALL)

structure DFSState where
  maze : Maze
  stack : List (Int × Int)
  dirs : List (Int × Int)
  ctr : Nat

/-- Number of WALL cells, the decreasing part of the loop measure. -/
def wallCount (m : Maze) : Nat :=
  (m.map fun row => row.countP (· = CELL_WALL)).sum

/-- The carving `while` loop.  Each iteration shuffles the direction array
in place, then either carves (two cells become EMPTY and the neighbour is
pushed) or backtracks (pop).  Fuel dominates `2 * wallCount + stack length`,
which strictly decreases every iteration. -/
def dfsLoopF (rng : Nat → Nat) (W H : Nat) : Nat → DFSState → DFSState
  | 0, s => s
  | fuel + 1, s =>
      match s.stack with
      | [] => s
      | (x, y) :: _ =>
          let dirs2 := shuffle4 rng s.ctr s.dirs
          match findCarve s.maze W H x y dirs2 with
          | some d =>
              let nx := x + d.1
              let ny := y + d.2
              let m1 := msetI s.maze nx ny CELL_EMPTY
              let m2 := msetI m1 (x + d.1 / 2) (y + d.2 / 2) CELL_EMPTY
              dfsLoopF rng W H fuel ⟨m2, (nx, ny) :: s.stack, dirs2, s.ctr + 3⟩
          | none =>
              dfsLoopF rng W H fuel ⟨s.maze, s.stack.tail, dirs2, s.ctr + 3⟩

/-- `generateMazeDFS(maze, 1, 1)`: carve the cell `(startX, startY)`, push
it, and run the loop to completion. -/
def generateMazeDFS (rng : Nat → Nat) (m : Maze) (startX startY : Nat) : Maze :=
  let W := mazeWidth m
  let H := mazeHeight m
  let m0 := mset m startX startY CELL_EMPTY
  (dfsLoopF rng W H (2 * wallCount m + 2)
    ⟨m0, [((startX : Int), (startY : Int))], dirs0, 0⟩).maze

/-- `generateMaze`: force odd dimensions, fill with walls, carve by DFS. -/
def generateMaze (rng : Nat → Nat) (width height : Nat) : Maze :=
  generateMazeDFS rng (initialMaze (coerceOdd width) (coerceOdd height)) 1 1

/-- The constructor: note that `goalPosition` is computed from the
requested, uncoerced dimensions. -/
def mkGameLogic (rng : Nat → Nat) (width height : Nat) : GameState :=
  { playerPosition := ⟨1, 1⟩
    goalPosition := ⟨(width : Int) - 2, (height : Int) - 2⟩
    maze := generateMaze rng width height
    gameWon := false
    moveCount := 0 }

/-- `getDistanceToGoal`: BFS from the player to the goal. -/
def getDistanceToGoal (st : GameState) : Nat :=
  bfsDist st.maze st.playerPosition st.goalPosition

/-- The blocked-move condition of `movePlayer`. -/
def hitWallB (st : GameState) (dir : Direction) : Bool :=
  let newPos := getNewPosition st.playerPosition dir
  !(isValidPosition st.maze newPos) ||
    decide (mread st.maze newPos.x newPos.y = CELL_WALL)

/-- `movePlayer`, returning the mutated state together with the outcome. -/
def movePlayer (st : GameState) (dir : Direction) : GameState × MoveOutcome :=
  let newPos := getNewPosition st.playerPosition dir
  if hitWallB st dir then
    (st, ⟨false, true, false, getDistanceToGoal st⟩)
  else
    let currentDistance := getDistanceToGoal st
    let newDistance := getDistance newPos st.goalPosition
    let isCorrect := decide (newDistance < currentDistance)
    let st1 := { st with playerPosition := newPos, moveCount := st.moveCount + 1 }
    let st2 := if newPos = st.goalPosition then { st1 with gameWon := true } else st1
    (st2, ⟨true, false, isCorrect, newDistance⟩)

end GL1

/-! ## GL2: the corridor-carve GameLogic (`part_002`) -/

namespace GL2

/-- `createPath`: two border-adjacent corridors, a middle cross, and (for
grids larger than 5×5) two strategic walls, written in source order. -/
def createPath (m : Maze) (width height : Nat) : Maze :=
  let m1 := (List.range' 1 (width - 1 - 1)).foldl
    (fun acc x => msetI (msetI acc x 1 CELL_EMPTY) x ((height : Int) - 2) CELL_EMPTY) m
  let m2 := (List.range' 1 (height - 1 - 1)).foldl
    (fun acc y => msetI (msetI acc 1 y CELL_EMPTY) ((width : Int) - 2) y CELL_EMPTY) m1
  let midX := width / 2
  let midY := height / 2
  let m3 := (List.range' 2 (width - 2 - 2)).foldl
    (fun acc x => msetI acc x midY CELL_EMPTY) m2
  let m4 := (List.range' 2 (height - 2 - 2)).foldl
    (fun acc y => msetI acc midX y CELL_EMPTY) m3
  if 5 < width ∧ 5 < height then
    msetI (msetI m4 3 2 CELL_WALL) ((width : Int) - 4) ((height : Int) - 3) CELL_WALL
  else m4

/-- `generateMaze`: walls everywhere, then `createPath` (no odd coercion in
this variant). -/
def generateMaze (width height : Nat) : Maze :=
  createPath (initialMaze width height) width height

def mkGameLogic (width height : Nat) : GameState :=
  { playerPosition := ⟨1, 1⟩
    goalPosition := ⟨(width : Int) - 2, (height : Int) - 2⟩
    maze := generateMaze width height
    gameWon := false
    moveCount := 0 }

/-- `getDistanceToGoal` of this variant is plain Manhattan distance. -/
def getDistanceToGoal (st : GameState) : Nat :=
  getDistance st.playerPosition st.goalPosition

def hitWallB (st : GameState) (dir : Direction) : Bool :=
  let newPos := getNewPosition st.playerPosition dir
  !(isValidPosition st.maze newPos) ||
    decide (mread st.maze newPos.x newPos.y = CELL_WALL)

def movePlayer (st : GameState) (dir : Direction) : GameState × MoveOutcome :=
  let newPos := getNewPosition st.playerPosition dir
  if hitWallB st dir then
    (st, ⟨false, true, false, getDistanceToGoal st⟩)
  else
    let currentDistance := getDistanceToGoal st
    let newDistance := getDistance newPos st.goalPosition
    let isCorrect := decide (newDistance < currentDistance)
    let st1 := { st with playerPosition := newPos, moveCount := st.moveCount + 1 }
    let st2 := if newPos = st.goalPosition then { st1 with gameWon := true } else st1
    (st2, ⟨true, false, isCorrect, newDistance⟩)

end GL2

/-! ## Audio front end (`AudioSystem.playSound`)

Only the control flow of `playSound` matters for the claims: the guard
`if (!this.isInitialized || !this.sounds.has(soundName)) return;` precedes
every node creation, connection and device write, and the remainder of the
body is wrapped in a `try`/`catch` that swallows any exception.  The state
is the `isInitialized` flag plus the set of cached buffer names; a call is
modelled by the list of audio-graph actions it performs. -/

namespace Audio

inductive AudioAction where
  | createBufferSource
  | createGain
  | createStereoPanner
  | setPan (value : Rat)
  | connectSourceToGain
  | connectGainToPanner
  | connectPannerToDestination
  | startPlayback (name : String)
deriving DecidableEq

structure AudioState where
  isInitialized : Bool
  sounds : List String
deriving DecidableEq

/-- The buffer names cached by `generateSounds`. -/
def soundNames : List String :=
  ["footstep-normal", "footstep-correct", "wall-collision", "open-space",
   "goal-close", "goal-medium", "goal-near", "celebration"]

/-- The audio-graph actions of the `try` block, in source order; the pan is
clamped by `Math.max(-1, Math.min(1, panValue))`. -/
def playActions (name : String) (pan : Rat) : List AudioAction :=
  [.createBufferSource, .createGain, .createStereoPanner,
   .setPan (max (-1) (min 1 pan)),
   .connectSourceToGain, .connectGainToPanner, .connectPannerToDestination,
   .startPlayback name]

/-- `playSound`: the early-return guard performs no action at all; past the
guard the call builds and starts the one-shot playback chain.  The function
is total because the source catches every exception of its body; in the
guard branch no fallible API is even reached. -/
def playSound (st : AudioState) (soundName : String) (panValue : Rat) :
    List AudioAction :=
  if !st.isInitialized || !(st.sounds.contains soundName) then []
  else playActions soundName panValue

end Audio

/-! ## Specification-side graph definitions

The claims speak about the 4-connected graph of EMPTY cells: vertices are
cells `p` with `mread m p.x p.y = CELL_EMPTY`, edges join cells at unit
N/S/E/W offsets, and the distance between two cells is the minimum hop
count over paths in that graph. -/

/-- 4-adjacency: `b` is one N/S/E/W unit step from `a`. -/
def Adj (a b : Position) : Prop := (b.x - a.x, b.y - a.y) ∈ bfsDirs

instance (a b : Position) : Decidable (Adj a b) :=
  inferInstanceAs (Decidable ((b.x - a.x, b.y - a.y) ∈ bfsDirs))

/-- Cell membership in the EMPTY-cell graph. -/
def CellEmpty (m : Maze) (p : Position) : Prop := mread m p.x p.y = CELL_EMPTY

instance (m : Maze) (p : Position) : Decidable (CellEmpty m p) :=
  inferInstanceAs (Decidable (mread m p.x p.y = CELL_EMPTY))

/-- Kernel-reducing decidability of adjacency chains (the library instance
is built by tactics and does not evaluate inside `decide`). -/
instance (priority := 1100) instDecidableChainAdj :
    (l : List Position) → Decidable (l.Chain' Adj)
  | [] => isTrue List.chain'_nil
  | [a] => isTrue (List.chain'_singleton a)
  | a :: b :: rest =>
      match instDecidableChainAdj (b :: rest) with
      | isTrue h =>
          if h2 : Adj a b then isTrue (List.chain'_cons.mpr ⟨h2, h⟩)
          else isFalse fun hc => h2 (List.chain'_cons.mp hc).1
      | isFalse h => isFalse fun hc => h (List.chain'_cons.mp hc).2

/-- A path of the EMPTY-cell graph from `s` to `t`: a nonempty cell list
starting at `s`, ending at `t`, stepping through 4-adjacent EMPTY cells. -/
def GoodPath (m : Maze) (s t : Position) (l : List Position) : Prop :=
  l.head? = some s ∧ l.getLast? = some t ∧ l.Chain' Adj ∧ ∀ p ∈ l, CellEmpty m p

instance (m : Maze) (s t : Position) (l : List Position) :
    Decidable (GoodPath m s t l) :=
  inferInstanceAs (Decidable (l.head? = some s ∧ l.getLast? = some t ∧
    l.Chain' Adj ∧ ∀ p ∈ l, CellEmpty m p))

/-- `t` is reachable from `s` in exactly `n` hops along some path. -/
def ReachIn (m : Maze) (s t : Position) (n : Nat) : Prop :=
  ∃ l, GoodPath m s t l ∧ l.length = n + 1

def ReachableG (m : Maze) (s t : Position) : Prop := ∃ n, ReachIn m s t n

/-- `n` is the minimum hop count from `s` to `t` over the EMPTY-cell
graph: some path has `n` hops and no path has fewer. -/
def IsShortest (m : Maze) (s t : Position) (n : Nat) : Prop :=
  ReachIn m s t n ∧ ∀ k, ReachIn m s t k → n ≤ k

/-! ## Proof-side state predicates -/

/-- `p` lies in the `W × H` coordinate window. -/
def InWindow (W H : Nat) (p : Position) : Prop :=
  0 ≤ p.x ∧ p.x < (W : Int) ∧ 0 ≤ p.y ∧ p.y < (H : Int)

instance (W H : Nat) (p : Position) : Decidable (InWindow W H p) :=
  inferInstanceAs (Decidable (0 ≤ p.x ∧ p.x < (W : Int) ∧ 0 ≤ p.y ∧ p.y < (H : Int)))

/-- The visited matrix has `H` rows of width `W`. -/
def VisShape (v : List (List Bool)) (W H : Nat) : Prop :=
  v.length = H ∧ ∀ row ∈ v, row.length = W

/-- The maze has `H` rows of width `W`, every cell EMPTY or WALL. -/
def MazeShape (W H : Nat) (m : Maze) : Prop :=
  m.length = H ∧ ∀ row ∈ m, row.length = W ∧
    ∀ c ∈ row, c = CELL_EMPTY ∨ c = CELL_WALL

/-- Count of unvisited coordinates inside the window (the decreasing part
of the BFS loop measure). -/
def windowFalse (W H : Nat) (v : List (List Bool)) : Nat :=
  ((List.range H).map fun (y : Nat) =>
    ((List.range W).filter fun (x : Nat) => !(vread v (x : Int) (y : Int))).length).sum

/-- Invariant of the BFS loop relative to maze `m`, window `W × H`, search
source `s` and target `t`: the visited matrix keeps shape, every queue
entry is an EMPTY in-window cell recorded at its true shortest distance,
queue distances are sorted and span at most two consecutive levels, every
visited cell is EMPTY, the source is visited, a visited cell that has left
the queue has all its EMPTY neighbours visited, every cell strictly closer
than the queue front is already visited, and a visited target is still
queued (the loop returns the moment it dequeues the target). -/
structure BFSInv (m : Maze) (W H : Nat) (s t : Position)
    (v : List (List Bool)) (q : List (Position × Nat)) : Prop where
  shape : VisShape v W H
  qmem : ∀ e ∈ q, InWindow W H e.1 ∧ CellEmpty m e.1 ∧
    vread v e.1.x e.1.y = true ∧ IsShortest m s e.1 e.2
  qsorted : q.Pairwise fun a b => a.2 ≤ b.2
  qband : ∀ a ∈ q, ∀ b ∈ q, b.2 ≤ a.2 + 1
  visEmpty : ∀ p, InWindow W H p → vread v p.x p.y = true → CellEmpty m p
  visS : vread v s.x s.y = true
  procClosed : ∀ p, InWindow W H p → vread v p.x p.y = true →
    (∀ d, (p, d) ∉ q) → ∀ p', Adj p p' → CellEmpty m p' →
    vread v p'.x p'.y = true
  frontier : ∀ c dc, q.head? = some (c, dc) → ∀ u n, CellEmpty m u →
    IsShortest m s u n → n < dc → vread v u.x u.y = true
  tInQ : vread v t.x t.y = true → ∃ d, (t, d) ∈ q

/-- The strictly interior odd-coordinate sub-lattice the DFS carver walks
on (cell targets of the 2-cell jumps). -/
def OddLat (W H : Nat) (c : Int × Int) : Prop :=
  c.1 % 2 = 1 ∧ c.2 % 2 = 1 ∧ 1 ≤ c.1 ∧ c.1 ≤ (W : Int) - 2 ∧
    1 ≤ c.2 ∧ c.2 ≤ (H : Int) - 2

/-- Invariant of the DFS carving loop: the maze keeps its `W × H`
two-valued shape, stack cells are odd-lattice EMPTY cells, the shuffled
direction array keeps exactly the four jump offsets, the start stays
EMPTY, every EMPTY odd-lattice cell is reachable from the start by an
EMPTY path whose hop count is bounded by twice the number of carved
cells, and every EMPTY odd-lattice cell no longer on the stack has all
its in-lattice jump neighbours already EMPTY (it was fully explored when
popped). -/
structure DFSInv (W H : Nat) (s : GL1.DFSState) : Prop where
  shape : MazeShape W H s.maze
  stackOdd : ∀ c ∈ s.stack, OddLat W H c
  stackEmpty : ∀ c ∈ s.stack, mread s.maze c.1 c.2 = CELL_EMPTY
  dirsMem : ∀ d, d ∈ s.dirs ↔ d ∈ GL1.dirs0
  startEmpty : mread s.maze 1 1 = CELL_EMPTY
  reach : ∀ c, OddLat W H c → mread s.maze c.1 c.2 = CELL_EMPTY →
    ∃ n, n ≤ 2 * (W * H - GL1.wallCount s.maze) ∧
      ReachIn s.maze ⟨1, 1⟩ ⟨c.1, c.2⟩ n
  sealedPop : ∀ c, OddLat W H c → mread s.maze c.1 c.2 = CELL_EMPTY →
    c ∉ s.stack → ∀ d ∈ GL1.dirs0, OddLat W H (c.1 + d.1, c.2 + d.2) →
    mread s.maze (c.1 + d.1) (c.2 + d.2) = CELL_EMPTY

/-! ## Concrete example data

`exMaze` is a 5×5 grid whose only empty cells are row 1 (x = 1..3), the
left column (x = 1, y = 1..3) and row 3 (x = 1..3); the cell (3,2) is a
wall, so walking east along row 1 enters a dead end whose exit doubles
back through (1,1). -/

def exMaze : Maze :=
  [[1, 1, 1, 1, 1],
   [1, 0, 0, 0, 1],
   [1, 0, 1, 1, 1],
   [1, 0, 0, 0, 1],
   [1, 1, 1, 1, 1]]

/-- Player at (1,1), goal at (3,3): the true shortest distance is 4. -/
def exSt : GameState :=
  { playerPosition := ⟨1, 1⟩
    goalPosition := ⟨3, 3⟩
    maze := exMaze
    gameWon := false
    moveCount := 0 }

/-- A state that has already been won: player sitting on the goal. -/
def exWonSt : GameState :=
  { playerPosition := ⟨3, 3⟩
    goalPosition := ⟨3, 3⟩
    maze := exMaze
    gameWon := true
    moveCount := 7 }

/-- Player at (2,1) in the dead end; used for the blocked-move claim. -/
def exSt2 : GameState :=
  { playerPosition := ⟨2, 1⟩
    goalPosition := ⟨3, 3⟩
    maze := exMaze
    gameWon := false
    moveCount := 0 }

/-- The all-zero random stream. -/
def rng0 : Nat → Nat := fun _ => 0

/-- Sequential EMPTY-writes over a list of coordinates; each of the four
corridor loops of GL2's `createPath` is an instance of this fold (over its
own coordinate list), which keeps the carving analysis uniform. -/
def wfold (ws : List (Int × Int)) (m : Maze) : Maze :=
  ws.foldl (fun acc c => msetI acc c.1 c.2 CELL_EMPTY) m

/-! # Theorems

## Grid read/write lemmas -/

theorem mread_natCast (m : Maze) (x y : Nat) :
    mread m (x : Int) (y : Int) = (m.getD y []).getD x 2 := by
  simp [mread]

theorem mread_neg (m : Maze) (x y : Int) (h : ¬(0 ≤ x ∧ 0 ≤ y)) :
    mread m x y = 2 := by
  simp [mread, h]

theorem mset_length (m : Maze) (x y v : Nat) :
    (mset m x y v).length = m.length := by
  simp [mset]

theorem msetI_length (m : Maze) (x y : Int) (v : Nat) :
    (msetI m x y v).length = m.length := by
  unfold msetI
  split <;> simp [mset_length]

theorem getD_set_eq {α : Type} (l : List α) (i : Nat) (a d : α)
    (h : i < l.length) : (l.set i a).getD i d = a := by
  rw [List.getD_eq_getElem?_getD, List.getElem?_set_eq_of_lt _ h]; rfl

theorem getD_set_ne {α : Type} (l : List α) (i j : Nat) (a d : α)
    (h : i ≠ j) : (l.set i a).getD j d = l.getD j d := by
  rw [List.getD_eq_getElem?_getD, List.getElem?_set_ne h,
    List.getD_eq_getElem?_getD]

theorem mread_mset_ne (m : Maze) (x y v : Nat) (x' y' : Int)
    (h : ¬(x' = (x : Int) ∧ y' = (y : Int))) :
    mread (mset m x y v) x' y' = mread m x' y' := by
  unfold mread mset
  by_cases hpos : 0 ≤ x' ∧ 0 ≤ y'
  · simp only [if_pos hpos]
    by_cases hy : y = y'.toNat
    · have hyx : y' = (y : Int) := by omega
      have hx : x ≠ x'.toNat := by
        intro hc
        exact h ⟨by omega, hyx⟩
      rw [← hy]
      by_cases hylt : y < m.length
      · rw [getD_set_eq _ _ _ _ hylt, getD_set_ne _ _ _ _ _ hx]
      · rw [List.set_eq_of_length_le (by omega)]
    · rw [getD_set_ne _ _ _ _ _ hy]
  · simp only [if_neg hpos]

theorem mread_mset_self (m : Maze) (x y v : Nat)
    (hy : y < m.length) (hx : x < (m.getD y []).length) :
    mread (mset m x y v) (x : Int) (y : Int) = v := by
  unfold mread mset
  have hpos : (0 : Int) ≤ (x : Int) ∧ (0 : Int) ≤ (y : Int) :=
    ⟨Int.natCast_nonneg _, Int.natCast_nonneg _⟩
  simp only [if_pos hpos, Int.toNat_natCast]
  rw [getD_set_eq _ _ _ _ hy, getD_set_eq _ _ _ _ hx]

theorem mread_msetI_ne (m : Maze) (x y : Int) (v : Nat) (x' y' : Int)
    (h : ¬(x' = x ∧ y' = y)) :
    mread (msetI m x y v) x' y' = mread m x' y' := by
  unfold msetI
  split
  · rename_i hg
    by_cases hpos : 0 ≤ x' ∧ 0 ≤ y'
    · apply mread_mset_ne
      intro ⟨h1, h2⟩
      exact h ⟨by omega, by omega⟩
    · rw [mread_neg _ _ _ hpos, mread_neg _ _ _ hpos]
  · rfl

/-- Writes either leave a cell alone or store the written value. -/
theorem mread_msetI_cases (m : Maze) (x y : Int) (v : Nat) (x' y' : Int) :
    mread (msetI m x y v) x' y' = mread m x' y' ∨
      mread (msetI m x y v) x' y' = v := by
  by_cases h : x' = x ∧ y' = y
  · rcases h with ⟨rfl, rfl⟩
    unfold msetI
    split
    · rename_i hg
      by_cases hy : y'.toNat < m.length
      · by_cases hx : x'.toNat < (m.getD y'.toNat []).length
        · right
          have := mread_mset_self m x'.toNat y'.toNat v hy hx
          rwa [Int.toNat_of_nonneg hg.1, Int.toNat_of_nonneg hg.2] at this
        · left
          unfold mread mset
          simp only [if_pos hg]
          rw [getD_set_eq _ _ _ _ hy, List.set_eq_of_length_le (by omega)]
      · left
        unfold mset
        rw [List.set_eq_of_length_le (by omega)]
    · left; rfl
  · left; exact mread_msetI_ne m x y v x' y' h

/-! ## Shape lemmas -/

theorem mazeShape_initial (W H : Nat) : MazeShape W H (initialMaze W H) := by
  refine ⟨List.length_replicate _ _, fun row hrow => ?_⟩
  rw [List.eq_of_mem_replicate hrow]
  exact ⟨List.length_replicate _ _, fun c hc => Or.inr (List.eq_of_mem_replicate hc)⟩

theorem mazeShape_mset (W H : Nat) (m : Maze) (hs : MazeShape W H m)
    (x y v : Nat) (hv : v = CELL_EMPTY ∨ v = CELL_WALL) :
    MazeShape W H (mset m x y v) := by
  obtain ⟨hlen, hrow⟩ := hs
  by_cases hy : y < m.length
  · refine ⟨by rw [mset_length]; exact hlen, fun row hmem => ?_⟩
    rcases List.mem_or_eq_of_mem_set hmem with hold | hnew
    · exact hrow row hold
    · subst hnew
      have hmem' : m.getD y [] ∈ m := by
        rw [List.getD_eq_getElem?_getD, List.getElem?_eq_getElem hy]
        exact List.getElem_mem hy
      obtain ⟨hl, hc⟩ := hrow _ hmem'
      refine ⟨by rw [List.length_set]; exact hl, fun c hcmem => ?_⟩
      rcases List.mem_or_eq_of_mem_set hcmem with hcold | hcnew
      · exact hc c hcold
      · subst hcnew; exact hv
  · have : mset m x y v = m := by
      unfold mset
      rw [List.set_eq_of_length_le (by omega)]
    rw [this]
    exact ⟨hlen, hrow⟩

theorem mazeShape_msetI (W H : Nat) (m : Maze) (hs : MazeShape W H m)
    (x y : Int) (v : Nat) (hv : v = CELL_EMPTY ∨ v = CELL_WALL) :
    MazeShape W H (msetI m x y v) := by
  unfold msetI
  split
  · exact mazeShape_mset W H m hs _ _ v hv
  · exact hs

theorem mazeShape_height (W H : Nat) (m : Maze) (hs : MazeShape W H m) :
    mazeHeight m = H := hs.1

theorem mazeShape_width (W H : Nat) (m : Maze) (hs : MazeShape W H m)
    (hH : 0 < H) : mazeWidth m = W := by
  obtain ⟨hlen, hrow⟩ := hs
  have h0 : 0 < m.length := by omega
  have hmem : m.getD 0 [] ∈ m := by
    rw [List.getD_eq_getElem?_getD, List.getElem?_eq_getElem h0]
    exact List.getElem_mem h0
  exact (hrow _ hmem).1

theorem mazeShape_rect (W H : Nat) (m : Maze) (hs : MazeShape W H m) :
    Rect m := by
  intro row hrow
  rcases Nat.eq_zero_or_pos H with hH | hH
  · obtain ⟨hlen, _⟩ := hs
    rw [hH] at hlen
    rw [List.length_eq_zero] at hlen
    subst hlen
    simp at hrow
  · rw [mazeShape_width W H m hs hH]
    exact (hs.2 row hrow).1

/-- In-window reads of a shaped maze are EMPTY or WALL. -/
theorem mazeShape_mread (W H : Nat) (m : Maze) (hs : MazeShape W H m)
    (x y : Int) (hx : 0 ≤ x) (hxW : x < (W : Int)) (hy : 0 ≤ y)
    (hyH : y < (H : Int)) :
    mread m x y = CELL_EMPTY ∨ mread m x y = CELL_WALL := by
  obtain ⟨hlen, hrow⟩ := hs
  unfold mread
  rw [if_pos ⟨hx, hy⟩]
  have hylt : y.toNat < m.length := by omega
  have hmem : m.getD y.toNat [] ∈ m := by
    rw [List.getD_eq_getElem?_getD, List.getElem?_eq_getElem hylt]
    exact List.getElem_mem hylt
  obtain ⟨hl, hc⟩ := hrow _ hmem
  have hxlt : x.toNat < (m.getD y.toNat []).length := by omega
  apply hc
  have hx2 : (m.getD y.toNat []).getD x.toNat 2 = (m.getD y.toNat [])[x.toNat] := by
    rw [List.getD_eq_getElem?_getD (m.getD y.toNat []),
      List.getElem?_eq_getElem hxlt]
    rfl
  rw [hx2]
  exact List.getElem_mem hxlt

/-- An out-of-window read never returns a cell constant. -/
theorem mread_out_of_window (W H : Nat) (m : Maze) (hs : MazeShape W H m)
    (x y : Int) (h : ¬(0 ≤ x ∧ x < (W : Int) ∧ 0 ≤ y ∧ y < (H : Int))) :
    mread m x y = 2 := by
  obtain ⟨hlen, hrow⟩ := hs
  by_cases hpos : 0 ≤ x ∧ 0 ≤ y
  · unfold mread
    rw [if_pos hpos]
    by_cases hy : y.toNat < m.length
    · have hmem : m.getD y.toNat [] ∈ m := by
        rw [List.getD_eq_getElem?_getD, List.getElem?_eq_getElem hy]
        exact List.getElem_mem hy
      have hxge : (m.getD y.toNat []).length ≤ x.toNat := by
        rw [(hrow _ hmem).1]
        omega
      rw [List.getD_eq_getElem?_getD (m.getD y.toNat []),
        List.getElem?_eq_none hxge]
      rfl
    · rw [List.getD_eq_getElem?_getD m, List.getElem?_eq_none (by omega)]
      rfl
  · exact mread_neg m x y hpos

/-- An EMPTY read of a shaped maze must be in the window. -/
theorem cellEmpty_inWindow (W H : Nat) (m : Maze) (hs : MazeShape W H m)
    (p : Position) (he : CellEmpty m p) : InWindow W H p := by
  by_contra hcon
  have h2 := mread_out_of_window W H m hs p.x p.y (fun hc =>
    hcon ⟨hc.1, hc.2.1, hc.2.2.1, hc.2.2.2⟩)
  rw [CellEmpty, h2] at he
  exact absurd he (by norm_num [CELL_EMPTY])

/-! ## Visited-matrix lemmas -/

theorem visShape_replicate (W H : Nat) :
    VisShape (List.replicate H (List.replicate W false)) W H := by
  refine ⟨List.length_replicate _ _, fun row hrow => ?_⟩
  rw [List.eq_of_mem_replicate hrow]
  exact List.length_replicate _ _

theorem visShape_vset (v : List (List Bool)) (W H : Nat)
    (hs : VisShape v W H) (x y : Int) : VisShape (vset v x y) W H := by
  unfold vset
  split
  · obtain ⟨hlen, hrow⟩ := hs
    by_cases hy : y.toNat < v.length
    · refine ⟨by rw [List.length_set]; exact hlen, fun row hmem => ?_⟩
      rcases List.mem_or_eq_of_mem_set hmem with hold | hnew
      · exact hrow row hold
      · subst hnew
        have hmem' : v.getD y.toNat [] ∈ v := by
          rw [List.getD_eq_getElem?_getD, List.getElem?_eq_getElem hy]
          exact List.getElem_mem hy
        rw [List.length_set]
        exact hrow _ hmem'
    · rw [List.set_eq_of_length_le (by omega)]
      exact ⟨hlen, hrow⟩
  · exact hs

theorem vread_vset_self (v : List (List Bool)) (W H : Nat)
    (hs : VisShape v W H) (p : Position) (hw : InWindow W H p) :
    vread (vset v p.x p.y) p.x p.y = true := by
  obtain ⟨hx0, hxW, hy0, hyH⟩ := hw
  obtain ⟨hlen, hrow⟩ := hs
  unfold vread vset
  rw [if_pos ⟨hx0, hy0⟩, if_pos ⟨hx0, hy0⟩]
  have hy : p.y.toNat < v.length := by omega
  have hmem : v.getD p.y.toNat [] ∈ v := by
    rw [List.getD_eq_getElem?_getD, List.getElem?_eq_getElem hy]
    exact List.getElem_mem hy
  have hx : p.x.toNat < (v.getD p.y.toNat []).length := by
    rw [hrow _ hmem]
    omega
  rw [getD_set_eq _ _ _ _ hy, getD_set_eq _ _ _ _ hx]

theorem vread_vset_ne (v : List (List Bool)) (x y : Int) (p : Position)
    (h : ¬(p.x = x ∧ p.y = y)) :
    vread (vset v x y) p.x p.y = vread v p.x p.y := by
  unfold vset
  by_cases hg : 0 ≤ x ∧ 0 ≤ y
  · rw [if_pos hg]
    unfold vread
    by_cases hpos : 0 ≤ p.x ∧ 0 ≤ p.y
    · rw [if_pos hpos, if_pos hpos]
      by_cases hy : y.toNat = p.y.toNat
      · have hyy : p.y = y := by omega
        have hx : x.toNat ≠ p.x.toNat := by
          intro hc
          exact h ⟨by omega, hyy⟩
        rw [← hy]
        by_cases hylt : y.toNat < v.length
        · rw [getD_set_eq _ _ _ _ hylt, getD_set_ne _ _ _ _ _ hx]
        · rw [List.set_eq_of_length_le (by omega)]
      · rw [getD_set_ne _ _ _ _ _ hy]
    · rw [if_neg hpos, if_neg hpos]
  · rw [if_neg hg]

/-- Marking never unmarks. -/
theorem vread_vset_mono (v : List (List Bool)) (x y : Int) (p : Position)
    (h : vread v p.x p.y = true) : vread (vset v x y) p.x p.y = true := by
  by_cases hc : p.x = x ∧ p.y = y
  · obtain ⟨hcx, hcy⟩ := hc
    unfold vread vset
    unfold vread at h
    by_cases hg : 0 ≤ x ∧ 0 ≤ y
    · rw [if_pos hg]
      have hg' : 0 ≤ p.x ∧ 0 ≤ p.y := ⟨by omega, by omega⟩
      rw [if_pos hg'] at h ⊢
      by_cases hy : p.y.toNat < v.length
      · have hx : p.x.toNat < (v.getD p.y.toNat []).length := by
          by_contra hcon
          rw [List.getD_eq_getElem?_getD (v.getD p.y.toNat []),
            List.getElem?_eq_none (by omega)] at h
          simp at h
        rw [← hcx, ← hcy]
        rw [getD_set_eq _ _ _ _ hy, getD_set_eq _ _ _ _ hx]
      · rw [List.getD_eq_getElem?_getD v, List.getElem?_eq_none (by omega)] at h
        simp at h
    · rw [if_neg hg]
      exact h
  · rw [vread_vset_ne v x y p hc]
    exact h

/-- A marked cell of a shaped matrix lies in the window. -/
theorem vread_inWindow (v : List (List Bool)) (W H : Nat)
    (hs : VisShape v W H) (p : Position) (h : vread v p.x p.y = true) :
    InWindow W H p := by
  obtain ⟨hlen, hrow⟩ := hs
  unfold vread at h
  by_cases hg : 0 ≤ p.x ∧ 0 ≤ p.y
  · rw [if_pos hg] at h
    by_cases hy : p.y.toNat < v.length
    · have hmem : v.getD p.y.toNat [] ∈ v := by
        rw [List.getD_eq_getElem?_getD, List.getElem?_eq_getElem hy]
        exact List.getElem_mem hy
      by_cases hx : p.x.toNat < (v.getD p.y.toNat []).length
      · have := hrow _ hmem
        exact ⟨hg.1, by omega, hg.2, by omega⟩
      · rw [List.getD_eq_getElem?_getD (v.getD p.y.toNat []),
          List.getElem?_eq_none (by omega)] at h
        simp at h
    · rw [List.getD_eq_getElem?_getD v, List.getElem?_eq_none (by omega)] at h
      simp at h
  · rw [if_neg hg] at h
    exact absurd h (by simp)

/-! ## Path lemmas for the EMPTY-cell graph -/

theorem adj_iff (p p' : Position) :
    Adj p p' ↔ ∃ d ∈ bfsDirs, p' = ⟨p.x + d.1, p.y + d.2⟩ := by
  constructor
  · intro h
    refine ⟨(p'.x - p.x, p'.y - p.y), h, ?_⟩
    cases p'
    simp only [Position.mk.injEq]
    omega
  · rintro ⟨d, hd, rfl⟩
    unfold Adj
    simp only [add_sub_cancel_left]
    exact hd

theorem adj_symm (p p' : Position) (h : Adj p p') : Adj p' p := by
  rw [adj_iff] at h ⊢
  obtain ⟨d, hd, rfl⟩ := h
  refine ⟨(-d.1, -d.2), ?_, ?_⟩
  · fin_cases hd <;> simp [bfsDirs]
  · simp

theorem goodPath_single (m : Maze) (s : Position) (h : CellEmpty m s) :
    GoodPath m s s [s] := by
  refine ⟨rfl, rfl, List.chain'_singleton s, ?_⟩
  intro p hp
  rw [List.mem_singleton] at hp
  subst hp
  exact h

theorem reachIn_self (m : Maze) (s : Position) (h : CellEmpty m s) :
    ReachIn m s s 0 := ⟨[s], goodPath_single m s h, rfl⟩

theorem goodPath_src_empty (m : Maze) (s t : Position) (l : List Position)
    (h : GoodPath m s t l) : CellEmpty m s := by
  obtain ⟨hh, _, _, hmem⟩ := h
  apply hmem
  exact List.mem_of_mem_head? hh

theorem goodPath_tgt_empty (m : Maze) (s t : Position) (l : List Position)
    (h : GoodPath m s t l) : CellEmpty m t := by
  obtain ⟨_, hl, _, hmem⟩ := h
  apply hmem
  exact List.mem_of_mem_getLast? hl

theorem reachIn_src_empty (m : Maze) (s t : Position) (n : Nat)
    (h : ReachIn m s t n) : CellEmpty m s := by
  obtain ⟨l, hgp, _⟩ := h
  exact goodPath_src_empty m s t l hgp

theorem reachIn_tgt_empty (m : Maze) (s t : Position) (n : Nat)
    (h : ReachIn m s t n) : CellEmpty m t := by
  obtain ⟨l, hgp, _⟩ := h
  exact goodPath_tgt_empty m s t l hgp

/-- Extend a path by one adjacent EMPTY cell. -/
theorem reachIn_snoc (m : Maze) (s w u : Position) (k : Nat)
    (h : ReachIn m s w k) (hadj : Adj w u) (hu : CellEmpty m u) :
    ReachIn m s u (k + 1) := by
  obtain ⟨l, ⟨hh, hl, hch, hmem⟩, hlen⟩ := h
  refine ⟨l ++ [u], ⟨?_, ?_, ?_, ?_⟩, ?_⟩
  · rcases l with _ | ⟨a, l'⟩
    · simp at hh
    · simpa using hh
  · simp
  · rw [List.chain'_append]
    refine ⟨hch, List.chain'_singleton u, ?_⟩
    intro a ha b hb
    simp only [List.head?_cons, Option.mem_def, Option.some.injEq] at hb
    rw [hl] at ha
    simp only [Option.mem_def, Option.some.injEq] at ha
    subst ha
    subst hb
    exact hadj
  · intro p hp
    rw [List.mem_append] at hp
    rcases hp with hp | hp
    · exact hmem p hp
    · rw [List.mem_singleton] at hp
      subst hp
      exact hu
  · simp [hlen]

/-- Strip the last cell from a path of positive length. -/
theorem reachIn_unsnoc (m : Maze) (s u : Position) (n : Nat)
    (h : ReachIn m s u (n + 1)) :
    ∃ w, Adj w u ∧ CellEmpty m w ∧ ReachIn m s w n := by
  obtain ⟨l, ⟨hh, hl, hch, hmem⟩, hlen⟩ := h
  have hne : l ≠ [] := by
    intro hc
    subst hc
    simp at hlen
  have hsplit : l = l.dropLast ++ [l.getLast hne] := by
    exact (List.dropLast_append_getLast hne).symm
  have hdlen : l.dropLast.length = n + 1 := by
    rw [List.length_dropLast, hlen]
    rfl
  have hdne : l.dropLast ≠ [] := by
    intro hc
    rw [hc] at hdlen
    simp at hdlen
  have hu : l.getLast hne = u := by
    rw [List.getLast?_eq_getLast l hne] at hl
    exact Option.some_injective _ hl
  refine ⟨l.dropLast.getLast hdne, ?_, ?_, ?_⟩
  · have hch2 := hsplit ▸ hch
    rw [List.chain'_append] at hch2
    obtain ⟨_, _, hcross⟩ := hch2
    have := hcross (l.dropLast.getLast hdne)
      (by rw [List.getLast?_eq_getLast _ hdne]; rfl) (l.getLast hne) rfl
    rwa [hu] at this
  · exact hmem _ (List.dropLast_subset l (List.getLast_mem hdne))
  · refine ⟨l.dropLast, ⟨?_, ?_, ?_, ?_⟩, hdlen⟩
    · rcases l with _ | ⟨a, l'⟩
      · exact absurd rfl hne
      · rcases l' with _ | ⟨b, l''⟩
        · simp at hdlen
        · simpa using hh
    · rw [List.getLast?_eq_getLast _ hdne]
    · have hch2 := hsplit ▸ hch
      rw [List.chain'_append] at hch2
      exact hch2.1
    · intro p hp
      exact hmem p (List.dropLast_subset l hp)

theorem isShortest_unique (m : Maze) (s t : Position) (n n' : Nat)
    (h : IsShortest m s t n) (h' : IsShortest m s t n') : n = n' :=
  Nat.le_antisymm (h.2 n' h'.1) (h'.2 n h.1)

/-- Every reachable cell has a shortest distance. -/
theorem reachable_isShortest (m : Maze) (s t : Position)
    (h : ReachableG m s t) : ∃ n, IsShortest m s t n := by
  obtain ⟨n, hn⟩ := h
  have hne : { k | ReachIn m s t k }.Nonempty := ⟨n, hn⟩
  exact ⟨sInf { k | ReachIn m s t k }, Nat.sInf_mem hne,
    fun k hk => Nat.sInf_le hk⟩

/-- The shortest distance to a cell adjacent to `p` exceeds the shortest
distance to `p` by at most one. -/
theorem isShortest_adj_le (m : Maze) (s p u : Position) (dp n : Nat)
    (hp : IsShortest m s p dp) (hadj : Adj p u) (hu : CellEmpty m u)
    (hn : IsShortest m s u n) : n ≤ dp + 1 :=
  hn.2 (dp + 1) (reachIn_snoc m s p u dp hp.1 hadj hu)

/-- A positive shortest distance has a predecessor at the previous level. -/
theorem isShortest_pred (m : Maze) (s u : Position) (n : Nat)
    (h : IsShortest m s u (n + 1)) :
    ∃ w, Adj w u ∧ CellEmpty m w ∧ IsShortest m s w n := by
  obtain ⟨hreach, hmin⟩ := h
  obtain ⟨w, hadj, hw, hwr⟩ := reachIn_unsnoc m s u n hreach
  refine ⟨w, hadj, hw, hwr, fun k hk => ?_⟩
  by_contra hcon
  have hk1 : k + 1 < n + 1 := by omega
  have := hmin (k + 1) (reachIn_snoc m s w u k hk hadj
    (reachIn_tgt_empty m s u (n + 1) hreach))
  omega

/-- Distance zero forces the cell to be the source. -/
theorem isShortest_zero (m : Maze) (s u : Position)
    (h : ReachIn m s u 0) : u = s := by
  obtain ⟨l, ⟨hh, hl, _, _⟩, hlen⟩ := h
  rcases l with _ | ⟨a, l'⟩
  · simp at hlen
  · rcases l' with _ | ⟨b, l''⟩
    · simp only [List.head?_cons, Option.some.injEq] at hh
      simp only [List.getLast?_singleton, Option.some.injEq] at hl
      rw [← hl, hh]
    · simp at hlen

/-- Split a list at the last element satisfying `P`. -/
theorem split_at_last_sat {α : Type} (P : α → Prop) :
    ∀ (l : List α) (x : α), x ∈ l → P x →
      ∃ l₁ z l₂, l = l₁ ++ z :: l₂ ∧ P z ∧ ∀ w ∈ l₂, ¬P w
  | [], x, hx, _ => absurd hx (List.not_mem_nil x)
  | a :: l', x, hx, hPx => by
      by_cases hl' : ∃ y ∈ l', P y
      · obtain ⟨y, hy, hPy⟩ := hl'
        obtain ⟨l₁, z, l₂, heq, hPz, hnone⟩ := split_at_last_sat P l' y hy hPy
        exact ⟨a :: l₁, z, l₂, by rw [heq]; rfl, hPz, hnone⟩
      · push_neg at hl'
        have hxa : x = a := by
          rcases List.mem_cons.mp hx with h | h
          · exact h
          · exact absurd hPx (hl' x h)
        subst hxa
        exact ⟨[], x, l', rfl, hPx, hl'⟩

/-- A suffix of a good path starting at its split cell is a good path. -/
theorem goodPath_suffix (m : Maze) (s t z : Position)
    (l₁ l₂ : List Position) (h : GoodPath m s t (l₁ ++ z :: l₂)) :
    GoodPath m z t (z :: l₂) := by
  obtain ⟨hh, hl, hch, hmem⟩ := h
  refine ⟨rfl, ?_, ?_, ?_⟩
  · rw [List.getLast?_append] at hl
    rcases hcons : (z :: l₂).getLast? with _ | w
    · simp at hcons
    · rw [hcons] at hl
      simp only [Option.or_some] at hl
      exact hl
  · exact (List.chain'_append.mp hch).2.1
  · intro p hp
    apply hmem
    rw [List.mem_append]
    exact Or.inr hp

/-! ## Counting lemmas for the BFS measure -/

theorem length_filter_mono {α : Type} (l : List α) (p q : α → Bool)
    (h : ∀ a ∈ l, p a = true → q a = true) :
    (l.filter p).length ≤ (l.filter q).length := by
  induction l with
  | nil => simp
  | cons a l ih =>
      have hrest : ∀ b ∈ l, p b = true → q b = true :=
        fun b hb => h b (List.mem_cons_of_mem a hb)
      by_cases hp : p a = true
      · rw [List.filter_cons_of_pos hp, List.filter_cons_of_pos (h a (by simp) hp)]
        simpa using ih hrest
      · rw [List.filter_cons_of_neg (by simpa using hp)]
        by_cases hq : q a = true
        · rw [List.filter_cons_of_pos hq]
          exact le_trans (ih hrest) (by simp)
        · rw [List.filter_cons_of_neg (by simpa using hq)]
          exact ih hrest

theorem length_filter_strict_mono {α : Type} (l : List α) (p q : α → Bool)
    (h : ∀ a ∈ l, p a = true → q a = true) (a0 : α) (ha0 : a0 ∈ l)
    (hq : q a0 = true) (hp : p a0 = false) :
    (l.filter p).length < (l.filter q).length := by
  induction l with
  | nil => simp at ha0
  | cons a l ih =>
      have hrest : ∀ b ∈ l, p b = true → q b = true :=
        fun b hb => h b (List.mem_cons_of_mem a hb)
      rcases List.mem_cons.mp ha0 with rfl | hmem
      · rw [List.filter_cons_of_neg (by simp [hp]), List.filter_cons_of_pos hq]
        exact Nat.lt_succ_of_le (length_filter_mono l p q hrest)
      · have hlt := ih hrest hmem
        by_cases hpa : p a = true
        · rw [List.filter_cons_of_pos hpa, List.filter_cons_of_pos (h a (by simp) hpa)]
          simpa using hlt
        · rw [List.filter_cons_of_neg (by simpa using hpa)]
          by_cases hqa : q a = true
          · rw [List.filter_cons_of_pos hqa]
            exact lt_of_lt_of_le hlt (by simp)
          · rw [List.filter_cons_of_neg (by simpa using hqa)]
            exact hlt

theorem sum_map_le {α : Type} (l : List α) (f g : α → Nat)
    (h : ∀ a ∈ l, f a ≤ g a) : (l.map f).sum ≤ (l.map g).sum := by
  induction l with
  | nil => simp
  | cons a l ih =>
      simp only [List.map_cons, List.sum_cons]
      exact Nat.add_le_add (h a (by simp))
        (ih fun b hb => h b (List.mem_cons_of_mem a hb))

theorem sum_map_lt {α : Type} (l : List α) (f g : α → Nat)
    (h : ∀ a ∈ l, f a ≤ g a) (a0 : α) (ha0 : a0 ∈ l) (hlt : f a0 < g a0) :
    (l.map f).sum < (l.map g).sum := by
  induction l with
  | nil => simp at ha0
  | cons a l ih =>
      simp only [List.map_cons, List.sum_cons]
      have hrest : ∀ b ∈ l, f b ≤ g b :=
        fun b hb => h b (List.mem_cons_of_mem a hb)
      rcases List.mem_cons.mp ha0 with rfl | hmem
      · exact Nat.add_lt_add_of_lt_of_le hlt (sum_map_le l f g hrest)
      · exact Nat.add_lt_add_of_le_of_lt (h a (by simp)) (ih hrest hmem)

theorem sum_map_bound {α : Type} (l : List α) (f : α → Nat) (c : Nat)
    (h : ∀ a ∈ l, f a ≤ c) : (l.map f).sum ≤ l.length * c := by
  induction l with
  | nil => simp
  | cons a l ih =>
      simp only [List.map_cons, List.sum_cons, List.length_cons]
      have := ih fun b hb => h b (List.mem_cons_of_mem a hb)
      have ha := h a (by simp)
      calc f a + (l.map f).sum ≤ c + l.length * c := Nat.add_le_add ha this
      _ = (l.length + 1) * c := by ring

theorem windowFalse_le (W H : Nat) (v : List (List Bool)) :
    windowFalse W H v ≤ H * W := by
  have h1 : ∀ y ∈ List.range H,
      ((List.range W).filter fun (x : Nat) => !(vread v (x : Int) (y : Int))).length ≤ W :=
    fun y _ => le_trans (List.length_filter_le _ _) (le_of_eq (List.length_range W))
  have h2 := sum_map_bound (List.range H)
    (fun (y : Nat) => ((List.range W).filter fun (x : Nat) => !(vread v (x : Int) (y : Int))).length)
    W h1
  rw [List.length_range] at h2
  exact h2

/-- Marking a fresh in-window cell strictly shrinks the unvisited count. -/
theorem windowFalse_vset_lt (W H : Nat) (v : List (List Bool))
    (hs : VisShape v W H) (u : Position) (hw : InWindow W H u)
    (hf : vread v u.x u.y = false) :
    windowFalse W H (vset v u.x u.y) < windowFalse W H v := by
  obtain ⟨hx0, hxW, hy0, hyH⟩ := hw
  have hmono : ∀ (y : Nat), ∀ x ∈ List.range W,
      (!(vread (vset v u.x u.y) (x : Int) (y : Int))) = true →
      (!(vread v (x : Int) (y : Int))) = true := by
    intro y x _ hnv
    simp only [Bool.not_eq_true'] at hnv ⊢
    by_cases hvxy : vread v (x : Int) (y : Int) = true
    · have := vread_vset_mono v u.x u.y ⟨(x : Int), (y : Int)⟩ hvxy
      rw [this] at hnv
      exact absurd hnv (by simp)
    · simpa using hvxy
  refine sum_map_lt (List.range H)
    (fun (y : Nat) => ((List.range W).filter
      fun (x : Nat) => !(vread (vset v u.x u.y) (x : Int) (y : Int))).length)
    (fun (y : Nat) => ((List.range W).filter
      fun (x : Nat) => !(vread v (x : Int) (y : Int))).length)
    (fun y _ => length_filter_mono (List.range W) _ _ (hmono y))
    u.y.toNat (List.mem_range.mpr (by omega)) ?_
  have hxx : ((u.x.toNat : Int)) = u.x := by omega
  have hyy : ((u.y.toNat : Int)) = u.y := by omega
  refine length_filter_strict_mono (List.range W) _ _ (hmono u.y.toNat)
    u.x.toNat (List.mem_range.mpr (by omega)) ?_ ?_
  · simp only [Bool.not_eq_true']
    rw [hxx, hyy]
    exact hf
  · simp only [Bool.not_eq_true', Bool.not_eq_false']
    rw [hxx, hyy]
    exact vread_vset_self v W H hs u ⟨hx0, hxW, hy0, hyH⟩

/-! ## The BFS inner-loop specification -/

theorem position_ext (w u : Position) (h1 : w.x = u.x) (h2 : w.y = u.y) :
    w = u := by
  cases w
  cases u
  simp only at h1 h2
  rw [h1, h2]

theorem bfsExpand_cases (m : Maze) (W H : Nat) (px py : Int) (dist : Nat)
    (v : List (List Bool)) (q : List (Position × Nat)) (d : Int × Int) :
    bfsExpand m W H px py dist (v, q) d = (v, q) ∨
    (InWindow W H ⟨px + d.1, py + d.2⟩ ∧
      CellEmpty m ⟨px + d.1, py + d.2⟩ ∧
      vread v (px + d.1) (py + d.2) = false ∧
      bfsExpand m W H px py dist (v, q) d =
        (vset v (px + d.1) (py + d.2),
          q ++ [(⟨px + d.1, py + d.2⟩, dist + 1)])) := by
  unfold bfsExpand
  dsimp only
  split
  · rename_i hg
    obtain ⟨h1, h2, h3, h4, h5, h6⟩ := hg
    exact Or.inr ⟨⟨h1, h2, h3, h4⟩, h5, h6, rfl⟩
  · exact Or.inl rfl

/-- If the guard of `bfsExpand` fails at an in-window EMPTY neighbour, the
neighbour was already visited. -/
theorem bfsExpand_guard_neg (m : Maze) (W H : Nat) (px py : Int)
    (dist : Nat) (v : List (List Bool)) (q : List (Position × Nat))
    (d : Int × Int) (hid : bfsExpand m W H px py dist (v, q) d = (v, q))
    (hw : InWindow W H ⟨px + d.1, py + d.2⟩)
    (he : CellEmpty m ⟨px + d.1, py + d.2⟩)
    (hv : vread v (px + d.1) (py + d.2) = false) (hs : VisShape v W H) :
    False := by
  obtain ⟨h1, h2, h3, h4⟩ := hw
  unfold bfsExpand at hid
  rw [if_pos ⟨h1, h2, h3, h4, he, hv⟩] at hid
  have hq := congrArg Prod.snd hid
  simp at hq

/-- Full characterisation of the four-direction expansion fold. -/
theorem bfsFold_spec (m : Maze) (W H : Nat) (p : Position) (dist : Nat) :
    ∀ (ds : List (Int × Int)) (v : List (List Bool))
      (q : List (Position × Nat)), VisShape v W H →
    ∃ news : List Position,
      (ds.foldl (bfsExpand m W H p.x p.y dist) (v, q)).2 =
        q ++ news.map (fun u => (u, dist + 1)) ∧
      VisShape (ds.foldl (bfsExpand m W H p.x p.y dist) (v, q)).1 W H ∧
      (∀ u ∈ news, (∃ d ∈ ds, u = ⟨p.x + d.1, p.y + d.2⟩) ∧
        InWindow W H u ∧ CellEmpty m u ∧ vread v u.x u.y = false) ∧
      (∀ w : Position,
        vread (ds.foldl (bfsExpand m W H p.x p.y dist) (v, q)).1 w.x w.y = true ↔
          (vread v w.x w.y = true ∨ w ∈ news)) ∧
      (∀ d ∈ ds, InWindow W H ⟨p.x + d.1, p.y + d.2⟩ →
        CellEmpty m ⟨p.x + d.1, p.y + d.2⟩ →
        vread (ds.foldl (bfsExpand m W H p.x p.y dist) (v, q)).1
          (p.x + d.1) (p.y + d.2) = true) ∧
      2 * windowFalse W H (ds.foldl (bfsExpand m W H p.x p.y dist) (v, q)).1 +
          ((ds.foldl (bfsExpand m W H p.x p.y dist) (v, q)).2).length ≤
        2 * windowFalse W H v + q.length
  | [], v, q, hs => by
      refine ⟨[], by simp, hs, by simp, fun w => by simp, by simp, by simp⟩
  | d :: ds, v, q, hs => by
      rw [List.foldl_cons]
      rcases bfsExpand_cases m W H p.x p.y dist v q d with hid | hset
      · rw [hid]
        obtain ⟨news, hq, hsh, hprops, hiff, hcov, hmeas⟩ :=
          bfsFold_spec m W H p dist ds v q hs
        refine ⟨news, hq, hsh, ?_, hiff, ?_, hmeas⟩
        · intro u hu
          obtain ⟨⟨d', hd', hu'⟩, rest⟩ := hprops u hu
          exact ⟨⟨d', List.mem_cons_of_mem d hd', hu'⟩, rest⟩
        · intro d' hd' hw he
          rcases List.mem_cons.mp hd' with rfl | hmem
          · by_cases hv : vread v (p.x + d'.1) (p.y + d'.2) = false
            · exact absurd (bfsExpand_guard_neg m W H p.x p.y dist v q d'
                hid hw he hv hs) id
            · have hv' : vread v (p.x + d'.1) (p.y + d'.2) = true := by
                simpa using hv
              have := (hiff ⟨p.x + d'.1, p.y + d'.2⟩).mpr (Or.inl hv')
              exact this
          · exact hcov d' hmem hw he
      · obtain ⟨hw, he, hv, heq⟩ := hset
        rw [heq]
        set u : Position := ⟨p.x + d.1, p.y + d.2⟩ with hu
        have hs' : VisShape (vset v (p.x + d.1) (p.y + d.2)) W H :=
          visShape_vset v W H hs (p.x + d.1) (p.y + d.2)
        obtain ⟨news, hq, hsh, hprops, hiff, hcov, hmeas⟩ :=
          bfsFold_spec m W H p dist ds (vset v (p.x + d.1) (p.y + d.2))
            (q ++ [(u, dist + 1)]) hs'
        have hvsetiff : ∀ w : Position,
            vread (vset v (p.x + d.1) (p.y + d.2)) w.x w.y = true ↔
              (vread v w.x w.y = true ∨ w = u) := by
          intro w
          constructor
          · intro hr
            by_cases hc : w.x = u.x ∧ w.y = u.y
            · exact Or.inr (position_ext w u hc.1 hc.2)
            · left
              rwa [vread_vset_ne v (p.x + d.1) (p.y + d.2) w hc] at hr
          · intro hr
            rcases hr with hr | rfl
            · exact vread_vset_mono v (p.x + d.1) (p.y + d.2) w hr
            · exact vread_vset_self v W H hs u hw
        refine ⟨u :: news, ?_, hsh, ?_, ?_, ?_, ?_⟩
        · rw [hq, List.map_cons, List.append_assoc]
          rfl
        · intro w hwmem
          rcases List.mem_cons.mp hwmem with rfl | hmem
          · exact ⟨⟨d, by simp, rfl⟩, hw, he, hv⟩
          · obtain ⟨⟨d', hd', hw'⟩, hw2, he2, hv2⟩ := hprops w hmem
            refine ⟨⟨d', List.mem_cons_of_mem d hd', hw'⟩, hw2, he2, ?_⟩
            by_cases hc : vread v w.x w.y = true
            · rw [vread_vset_mono v (p.x + d.1) (p.y + d.2) w hc] at hv2
              exact absurd hv2 (by simp)
            · simpa using hc
        · intro w
          rw [hiff w, hvsetiff w, List.mem_cons]
          tauto
        · intro d' hd' hw' he'
          rcases List.mem_cons.mp hd' with rfl | hmem
          · apply (hiff ⟨p.x + d'.1, p.y + d'.2⟩).mpr
            left
            exact vread_vset_self v W H hs _ hw'
          · exact hcov d' hmem hw' he'
        · have hlt : windowFalse W H (vset v (p.x + d.1) (p.y + d.2)) <
              windowFalse W H v := windowFalse_vset_lt W H v hs u hw hv
          have hlen : (q ++ [(u, dist + 1)]).length = q.length + 1 := by simp
          rw [hlen] at hmeas
          omega

/-- One full dequeue-and-expand step strictly decreases the loop measure. -/
theorem bfsFold_measure (m : Maze) (W H : Nat) (p : Position) (dist : Nat)
    (v : List (List Bool)) (rest : List (Position × Nat))
    (hs : VisShape v W H) :
    2 * windowFalse W H
        (bfsDirs.foldl (bfsExpand m W H p.x p.y dist) (v, rest)).1 +
      ((bfsDirs.foldl (bfsExpand m W H p.x p.y dist) (v, rest)).2).length <
      2 * windowFalse W H v + (rest.length + 1) := by
  obtain ⟨_, _, _, _, _, hmeas⟩ := bfsFold_spec m W H p dist bfsDirs v rest hs
  omega

/-! ## BFS loop invariant preservation -/

theorem pairwise_of_all {α : Type} (l : List α) (R : α → α → Prop)
    (h : ∀ a b, R a b) : l.Pairwise R := by
  induction l with
  | nil => exact List.Pairwise.nil
  | cons a l ih => exact List.Pairwise.cons (fun b _ => h a b) ih

theorem adj_of_dir (c : Position) (d : Int × Int) (hd : d ∈ bfsDirs) :
    Adj c ⟨c.x + d.1, c.y + d.2⟩ :=
  (adj_iff c ⟨c.x + d.1, c.y + d.2⟩).mpr ⟨d, hd, rfl⟩

/-- All cells with shortest distance at most the front's recorded distance
are already visited (mark-on-enqueue plus FIFO order). -/
theorem bfsInv_snap (m : Maze) (W H : Nat) (s t : Position)
    (hew : ∀ p, CellEmpty m p → InWindow W H p)
    (v : List (List Bool)) (c : Position) (dc : Nat)
    (rest : List (Position × Nat))
    (hinv : BFSInv m W H s t v ((c, dc) :: rest)) :
    ∀ u n, CellEmpty m u → IsShortest m s u n → n ≤ dc →
      vread v u.x u.y = true := by
  intro u n hue hu hn
  rcases Nat.eq_zero_or_pos n with hz | hpos
  · subst hz
    have : u = s := isShortest_zero m s u hu.1
    subst this
    exact hinv.visS
  · obtain ⟨k, rfl⟩ : ∃ k, n = k + 1 := ⟨n - 1, by omega⟩
    obtain ⟨w, hadj, hwe, hws⟩ := isShortest_pred m s u k hu
    have hwvis : vread v w.x w.y = true :=
      hinv.frontier c dc rfl w k hwe hws (by omega)
    have hwnotq : ∀ d, (w, d) ∉ (c, dc) :: rest := by
      intro d hd
      have hsw := (hinv.qmem (w, d) hd).2.2.2
      have hdk : d = k := isShortest_unique m s w d k hsw hws
      rcases List.mem_cons.mp hd with heq | hmem
      · have h2 : d = dc := congrArg Prod.snd heq
        omega
      · have hsorted := hinv.qsorted
        rw [List.pairwise_cons] at hsorted
        have h3 := hsorted.1 (w, d) hmem
        simp at h3
        omega
    exact hinv.procClosed w (hew w hwe) hwvis hwnotq u hadj hue

/-- One dequeue-and-expand step of the loop preserves the invariant. -/
theorem bfsInv_step (m : Maze) (W H : Nat) (s t : Position)
    (hew : ∀ p, CellEmpty m p → InWindow W H p)
    (v : List (List Bool)) (c : Position) (dc : Nat)
    (rest : List (Position × Nat))
    (hinv : BFSInv m W H s t v ((c, dc) :: rest)) (hct : c ≠ t) :
    BFSInv m W H s t
      (bfsDirs.foldl (bfsExpand m W H c.x c.y dc) (v, rest)).1
      (bfsDirs.foldl (bfsExpand m W H c.x c.y dc) (v, rest)).2 := by
  obtain ⟨news, hq, hsh, hprops, hiff, hcov, hmeas⟩ :=
    bfsFold_spec m W H c dc bfsDirs v rest hinv.shape
  have hchead := hinv.qmem (c, dc) (by simp)
  have hrest_ge : ∀ e ∈ rest, dc ≤ e.2 := by
    intro e he
    have hsorted := hinv.qsorted
    rw [List.pairwise_cons] at hsorted
    exact hsorted.1 e he
  have hrest_le : ∀ e ∈ rest, e.2 ≤ dc + 1 := by
    intro e he
    exact hinv.qband (c, dc) (by simp) e (List.mem_cons_of_mem _ he)
  have hsnap := bfsInv_snap m W H s t hew v c dc rest hinv
  -- every newly enqueued cell sits exactly one level beyond the front
  have hnews_short : ∀ u ∈ news, IsShortest m s u (dc + 1) := by
    intro u hu
    obtain ⟨⟨d, hd, hud⟩, huw, hue, huv⟩ := hprops u hu
    have hadj : Adj c u := by
      rw [hud]
      exact adj_of_dir c d hd
    have hreach : ReachIn m s u (dc + 1) :=
      reachIn_snoc m s c u dc (hchead.2.2.2).1 hadj hue
    obtain ⟨n, hn⟩ := reachable_isShortest m s u ⟨dc + 1, hreach⟩
    have hle : n ≤ dc + 1 := hn.2 (dc + 1) hreach
    by_cases hless : n ≤ dc
    · have := hsnap u n hue hn hless
      rw [this] at huv
      exact absurd huv (by simp)
    · have : n = dc + 1 := by omega
      subst this
      exact hn
  have hnews_pos : ∀ u ∈ news, ∃ d, (u, d) ∈
      (bfsDirs.foldl (bfsExpand m W H c.x c.y dc) (v, rest)).2 := by
    intro u hu
    refine ⟨dc + 1, ?_⟩
    rw [hq, List.mem_append]
    exact Or.inr (List.mem_map_of_mem _ hu)
  refine ⟨hsh, ?_, ?_, ?_, ?_, ?_, ?_, ?_, ?_⟩
  · -- qmem
    intro e he
    rw [hq, List.mem_append] at he
    rcases he with he | he
    · have hold := hinv.qmem e (List.mem_cons_of_mem _ he)
      exact ⟨hold.1, hold.2.1, (hiff e.1).mpr (Or.inl hold.2.2.1), hold.2.2.2⟩
    · rw [List.mem_map] at he
      obtain ⟨u, hu, rfl⟩ := he
      obtain ⟨_, huw, hue, _⟩ := hprops u hu
      exact ⟨huw, hue, (hiff u).mpr (Or.inr hu), hnews_short u hu⟩
  · -- qsorted
    rw [hq, List.pairwise_append]
    refine ⟨?_, ?_, ?_⟩
    · have hsorted := hinv.qsorted
      rw [List.pairwise_cons] at hsorted
      exact hsorted.2
    · rw [List.pairwise_map]
      exact pairwise_of_all news _ (fun a b => le_refl _)
    · intro a ha b hb
      rw [List.mem_map] at hb
      obtain ⟨u, hu, rfl⟩ := hb
      exact hrest_le a ha
  · -- qband
    intro a ha b hb
    rw [hq, List.mem_append] at ha hb
    have hb2 : b.2 ≤ dc + 1 := by
      rcases hb with hb | hb
      · exact hrest_le b hb
      · rw [List.mem_map] at hb
        obtain ⟨u, hu, rfl⟩ := hb
        exact le_refl _
    have ha2 : dc ≤ a.2 := by
      rcases ha with ha | ha
      · exact hrest_ge a ha
      · rw [List.mem_map] at ha
        obtain ⟨u, hu, rfl⟩ := ha
        omega
    omega
  · -- visEmpty
    intro p hp hv
    rcases (hiff p).mp hv with hv | hv
    · exact hinv.visEmpty p hp hv
    · exact (hprops p hv).2.2.1
  · -- visS
    exact (hiff s).mpr (Or.inl hinv.visS)
  · -- procClosed
    intro p hp hv hnotq p' hadj hpe
    rcases (hiff p).mp hv with hvold | hvnew
    · by_cases hpq : ∃ d, (p, d) ∈ (c, dc) :: rest
      · obtain ⟨d, hd⟩ := hpq
        rcases List.mem_cons.mp hd with heq | hmem
        · -- p is the dequeued front: its neighbours were all handled
          have hpc : p = c := congrArg Prod.fst heq
          subst hpc
          obtain ⟨dd, hdd, hp'⟩ := (adj_iff p p').mp hadj
          have hw' : InWindow W H p' := hew p' hpe
          have := hcov dd hdd (by rwa [← hp']) (by rwa [← hp'])
          rw [hp']
          exact this
        · exact absurd (hnotq d (by rw [hq, List.mem_append]; exact Or.inl hmem))
            (by simp)
      · push_neg at hpq
        have := hinv.procClosed p hp hvold hpq p' hadj hpe
        exact (hiff p').mpr (Or.inl this)
    · exact absurd (hnotq (dc + 1)
        (by rw [hq, List.mem_append];
            exact Or.inr (List.mem_map_of_mem _ hvnew))) (by simp)
  · -- frontier
    intro c' dc' hhead u n hue hu hn
    have hc'mem : (c', dc') ∈
        (bfsDirs.foldl (bfsExpand m W H c.x c.y dc) (v, rest)).2 :=
      List.mem_of_mem_head? hhead
    have hdc' : dc' ≤ dc + 1 := by
      rw [hq, List.mem_append] at hc'mem
      rcases hc'mem with hm | hm
      · exact hrest_le (c', dc') hm
      · rw [List.mem_map] at hm
        obtain ⟨u', hu', heq⟩ := hm
        have := congrArg Prod.snd heq
        simp at this
        omega
    have : n ≤ dc := by omega
    exact (hiff u).mpr (Or.inl (hsnap u n hue hu this))
  · -- tInQ
    intro hv
    rcases (hiff t).mp hv with hv | hv
    · obtain ⟨d, hd⟩ := hinv.tInQ hv
      rcases List.mem_cons.mp hd with heq | hmem
      · exact absurd (congrArg Prod.fst heq).symm hct
      · exact ⟨d, by rw [hq, List.mem_append]; exact Or.inl hmem⟩
    · exact hnews_pos t hv

/-! ## BFS main theorem -/

theorem rect_cellEmpty_inWindow (m : Maze) (hrect : Rect m) (p : Position)
    (he : CellEmpty m p) : InWindow (mazeWidth m) (mazeHeight m) p := by
  unfold CellEmpty mread at he
  by_cases hg : 0 ≤ p.x ∧ 0 ≤ p.y
  · rw [if_pos hg] at he
    by_cases hy : p.y.toNat < m.length
    · have hmem : m.getD p.y.toNat [] ∈ m := by
        rw [List.getD_eq_getElem?_getD, List.getElem?_eq_getElem hy]
        exact List.getElem_mem hy
      by_cases hx : p.x.toNat < (m.getD p.y.toNat []).length
      · have hw := hrect _ hmem
        unfold mazeHeight
        exact ⟨hg.1, by omega, hg.2, by omega⟩
      · rw [List.getD_eq_getElem?_getD (m.getD p.y.toNat []),
          List.getElem?_eq_none (by omega)] at he
        exact absurd he (by norm_num [CELL_EMPTY])
    · rw [List.getD_eq_getElem?_getD m, List.getElem?_eq_none (by omega)] at he
      exact absurd he (by norm_num [CELL_EMPTY])
  · rw [if_neg hg] at he
    exact absurd he (by norm_num [CELL_EMPTY])

theorem vread_replicate_false (W H : Nat) (x y : Int) :
    vread (List.replicate H (List.replicate W false)) x y = false := by
  unfold vread
  by_cases hg : 0 ≤ x ∧ 0 ≤ y
  · rw [if_pos hg]
    by_cases hy : y.toNat < H
    · have hrow : (List.replicate H (List.replicate W false)).getD y.toNat []
          = List.replicate W false := by
        rw [List.getD_eq_getElem?_getD, List.getElem?_replicate, if_pos hy]
        rfl
      rw [hrow]
      by_cases hx : x.toNat < W
      · rw [List.getD_eq_getElem?_getD, List.getElem?_replicate, if_pos hx]
        rfl
      · rw [List.getD_eq_getElem?_getD, List.getElem?_replicate, if_neg hx]
        rfl
    · have hrow : (List.replicate H (List.replicate W false)).getD y.toNat []
          = [] := by
        rw [List.getD_eq_getElem?_getD, List.getElem?_replicate, if_neg hy]
        rfl
      rw [hrow]
      rfl
  · rw [if_neg hg]

/-- The loop, run with fuel above the measure from an invariant state,
terminates with the shortest distance (or the 9999 sentinel). -/
theorem bfsLoop_main (m : Maze) (W H : Nat) (s t : Position)
    (hew : ∀ p, CellEmpty m p → InWindow W H p) :
    ∀ (fuel : Nat) (v : List (List Bool)) (q : List (Position × Nat)),
      BFSInv m W H s t v q →
      2 * windowFalse W H v + q.length < fuel →
      ∃ r, bfsLoopF m W H t fuel v q = some r ∧
        (ReachableG m s t → IsShortest m s t r) ∧
        (¬ReachableG m s t → r = 9999) := by
  intro fuel
  induction fuel with
  | zero => intro v q _ hlt; omega
  | succ fuel ih =>
      intro v q hinv hlt
      rcases q with _ | ⟨⟨c, dc⟩, rest⟩
      · refine ⟨9999, rfl, fun hr => ?_, fun _ => rfl⟩
        exfalso
        obtain ⟨n, l, hgp, hlen⟩ := hr
        have hsl : s ∈ l := List.mem_of_mem_head? (by rw [hgp.1]; rfl)
        obtain ⟨l₁, z, l₂, hsplit, hPz, hnone⟩ :=
          split_at_last_sat (fun w => vread v w.x w.y = true) l s hsl hinv.visS
        have hsuf : GoodPath m z t (z :: l₂) :=
          goodPath_suffix m s t z l₁ l₂ (hsplit ▸ hgp)
        have hzw : InWindow W H z := vread_inWindow v W H hinv.shape z hPz
        rcases l₂ with _ | ⟨w, l₂'⟩
        · have hzt : z = t := by
            have := hsuf.2.1
            simp only [List.getLast?_singleton, Option.some.injEq] at this
            exact this
          subst hzt
          obtain ⟨d, hd⟩ := hinv.tInQ hPz
          exact List.not_mem_nil (z, d) hd
        · have hadj : Adj z w := (List.chain'_cons.mp hsuf.2.2.1).1
          have hwe : CellEmpty m w := hsuf.2.2.2 w (by simp)
          have hwvis := hinv.procClosed z hzw hPz
            (fun d hd => List.not_mem_nil (z, d) hd) w hadj hwe
          exact absurd hwvis (by simp [hnone w (by simp)])
      · have hunfold : bfsLoopF m W H t (fuel + 1) v ((c, dc) :: rest) =
            if c = t then some dc
            else bfsLoopF m W H t fuel
              (bfsDirs.foldl (bfsExpand m W H c.x c.y dc) (v, rest)).1
              (bfsDirs.foldl (bfsExpand m W H c.x c.y dc) (v, rest)).2 := rfl
        by_cases hct : c = t
        · subst hct
          have hshort := (hinv.qmem (c, dc) (by simp)).2.2.2
          refine ⟨dc, by rw [hunfold, if_pos rfl], fun _ => hshort,
            fun hnr => absurd ⟨dc, hshort.1⟩ hnr⟩
        · have hinv' := bfsInv_step m W H s t hew v c dc rest hinv hct
          have hmeas := bfsFold_measure m W H c dc v rest hinv.shape
          obtain ⟨r, heq, h1, h2⟩ := ih
            (bfsDirs.foldl (bfsExpand m W H c.x c.y dc) (v, rest)).1
            (bfsDirs.foldl (bfsExpand m W H c.x c.y dc) (v, rest)).2
            hinv' (by simp only [List.length_cons] at hlt; omega)
          exact ⟨r, by rw [hunfold, if_neg hct]; exact heq, h1, h2⟩

/-- Correctness of GL1's BFS distance: on a rectangular grid, searching
from an EMPTY cell, it returns the minimum hop count over the 4-connected
EMPTY-cell graph, or 9999 when the target is unreachable. -/
theorem bfsDist_correct (m : Maze) (s t : Position) (hrect : Rect m)
    (hse : CellEmpty m s) :
    (ReachableG m s t → IsShortest m s t (bfsDist m s t)) ∧
    (¬ReachableG m s t → bfsDist m s t = 9999) := by
  have hew : ∀ p, CellEmpty m p → InWindow (mazeWidth m) (mazeHeight m) p :=
    fun p hp => rect_cellEmpty_inWindow m hrect p hp
  have hsw : InWindow (mazeWidth m) (mazeHeight m) s := hew s hse
  set W := mazeWidth m with hW
  set H := mazeHeight m with hH
  set v0 := vset (List.replicate H (List.replicate W false)) s.x s.y with hv0
  have hshape0 : VisShape v0 W H :=
    visShape_vset _ W H (visShape_replicate W H) s.x s.y
  have hvis0 : ∀ p : Position, vread v0 p.x p.y = true ↔ p = s := by
    intro p
    constructor
    · intro hp
      by_cases hc : p.x = s.x ∧ p.y = s.y
      · exact position_ext p s hc.1 hc.2
      · rw [hv0, vread_vset_ne _ s.x s.y p hc, vread_replicate_false] at hp
        exact absurd hp (by simp)
    · intro hp
      rw [hp]
      exact vread_vset_self _ W H (visShape_replicate W H) s hsw
  have hinv0 : BFSInv m W H s t v0 [(s, 0)] := by
    refine ⟨hshape0, ?_, ?_, ?_, ?_, ?_, ?_, ?_, ?_⟩
    · intro e he
      rw [List.mem_singleton] at he
      subst he
      exact ⟨hsw, hse, (hvis0 s).mpr rfl,
        ⟨reachIn_self m s hse, fun k _ => Nat.zero_le k⟩⟩
    · exact List.pairwise_singleton _ _
    · intro a ha b hb
      rw [List.mem_singleton] at ha hb
      subst ha; subst hb
      omega
    · intro p _ hp
      rw [(hvis0 p).mp hp]
      exact hse
    · exact (hvis0 s).mpr rfl
    · intro p _ hp hnotq
      have hps := (hvis0 p).mp hp
      refine absurd ?_ (hnotq 0)
      rw [hps]
      exact List.mem_singleton_self (s, 0)
    · intro c dcv hhead u n _ _ hn
      simp only [List.head?_cons, Option.some.injEq] at hhead
      have : dcv = 0 := (congrArg Prod.snd hhead).symm
      omega
    · intro hv
      exact ⟨0, by rw [(hvis0 t).mp hv]; exact List.mem_singleton_self _⟩
  have hwfle := windowFalse_le W H v0
  have hcomm : H * W = W * H := Nat.mul_comm H W
  have hmul : 2 * W * H = 2 * (W * H) := by ring
  obtain ⟨r, heq, h1, h2⟩ := bfsLoop_main m W H s t hew (2 * W * H + 2)
    v0 [(s, 0)] hinv0 (by simp only [List.length_singleton]; omega)
  have hdist : bfsDist m s t =
      (bfsLoopF m W H t (2 * W * H + 2) v0 [(s, 0)]).getD 9999 := rfl
  rw [hdist, heq]
  exact ⟨h1, h2⟩

/-! ## Move-execution lemmas (shared shape of both variants) -/

theorem GL1_movePlayer_blocked (st : GameState) (dir : Direction)
    (h : GL1.hitWallB st dir = true) :
    GL1.movePlayer st dir =
      (st, ⟨false, true, false, GL1.getDistanceToGoal st⟩) := by
  unfold GL1.movePlayer
  rw [if_pos h]

theorem GL1_movePlayer_advanced (st : GameState) (dir : Direction)
    (h : GL1.hitWallB st dir = false) :
    GL1.movePlayer st dir =
      (let newPos := getNewPosition st.playerPosition dir
       let st1 := { st with playerPosition := newPos,
                            moveCount := st.moveCount + 1 }
       ((if newPos = st.goalPosition then { st1 with gameWon := true } else st1),
        ⟨true, false,
          decide (getDistance newPos st.goalPosition < GL1.getDistanceToGoal st),
          getDistance newPos st.goalPosition⟩)) := by
  unfold GL1.movePlayer
  rw [if_neg (by simp [h])]

theorem GL2_movePlayer_blocked (st : GameState) (dir : Direction)
    (h : GL2.hitWallB st dir = true) :
    GL2.movePlayer st dir =
      (st, ⟨false, true, false, GL2.getDistanceToGoal st⟩) := by
  unfold GL2.movePlayer
  rw [if_pos h]

theorem GL2_movePlayer_advanced (st : GameState) (dir : Direction)
    (h : GL2.hitWallB st dir = false) :
    GL2.movePlayer st dir =
      (let newPos := getNewPosition st.playerPosition dir
       let st1 := { st with playerPosition := newPos,
                            moveCount := st.moveCount + 1 }
       ((if newPos = st.goalPosition then { st1 with gameWon := true } else st1),
        ⟨true, false,
          decide (getDistance newPos st.goalPosition < GL2.getDistanceToGoal st),
          getDistance newPos st.goalPosition⟩)) := by
  unfold GL2.movePlayer
  rw [if_neg (by simp [h])]

/-- The blocked-move test and the distance query ignore the `gameWon`
flag (they read only the maze and the positions). -/
theorem GL1.hitWallB_won (st : GameState) (dir : Direction) (b : Bool) :
    GL1.hitWallB { st with gameWon := b } dir = GL1.hitWallB st dir := rfl

theorem GL1.getDistanceToGoal_won (st : GameState) (b : Bool) :
    GL1.getDistanceToGoal { st with gameWon := b } =
      GL1.getDistanceToGoal st := rfl

/-! ## Shuffle and carve-scan lemmas -/

theorem mem_swapAt (l : List (Int × Int)) (i j : Nat) (x : Int × Int) :
    x ∈ GL1.swapAt l i j ↔ x ∈ l := by
  unfold GL1.swapAt
  rcases h1 : l[i]? with _ | a
  · exact Iff.rfl
  · rcases h2 : l[j]? with _ | b
    · exact Iff.rfl
    · have hi : i < l.length := by
        by_contra hc
        rw [List.getElem?_eq_none (by omega)] at h1
        exact absurd h1 (by simp)
      have hj : j < l.length := by
        by_contra hc
        rw [List.getElem?_eq_none (by omega)] at h2
        exact absurd h2 (by simp)
      constructor
      · intro hx
        rw [List.mem_iff_getElem?] at hx ⊢
        obtain ⟨k, hk⟩ := hx
        by_cases hkj : k = j
        · subst hkj
          rw [List.getElem?_set_eq_of_lt a (by rw [List.length_set]; exact hj)] at hk
          exact ⟨i, by rw [h1, ← hk]⟩
        · rw [List.getElem?_set_ne (Ne.symm hkj)] at hk
          by_cases hki : k = i
          · subst hki
            rw [List.getElem?_set_eq_of_lt b hi] at hk
            exact ⟨j, by rw [h2, ← hk]⟩
          · rw [List.getElem?_set_ne (Ne.symm hki)] at hk
            exact ⟨k, hk⟩
      · intro hx
        rw [List.mem_iff_getElem?] at hx ⊢
        obtain ⟨k, hk⟩ := hx
        by_cases hki : k = i
        · subst hki
          rw [h1] at hk
          refine ⟨j, ?_⟩
          rw [List.getElem?_set_eq_of_lt a (by rw [List.length_set]; exact hj)]
          rw [← hk]
        · by_cases hkj : k = j
          · rw [hkj, h2] at hk
            have hij : i ≠ j := fun hc => hki (hkj.trans hc.symm)
            refine ⟨i, ?_⟩
            rw [List.getElem?_set_ne (Ne.symm hij), List.getElem?_set_eq_of_lt b hi]
            rw [← hk]
          · refine ⟨k, ?_⟩
            rw [List.getElem?_set_ne (Ne.symm hkj),
              List.getElem?_set_ne (Ne.symm hki)]
            exact hk

theorem mem_shuffle4 (rng : Nat → Nat) (c : Nat) (dirs : List (Int × Int))
    (x : Int × Int) : x ∈ GL1.shuffle4 rng c dirs ↔ x ∈ dirs := by
  unfold GL1.shuffle4
  rw [mem_swapAt, mem_swapAt, mem_swapAt]

theorem findCarve_some (m : Maze) (W H : Nat) (x y : Int)
    (dirs : List (Int × Int)) (d : Int × Int)
    (h : GL1.findCarve m W H x y dirs = some d) :
    d ∈ dirs ∧ 0 < x + d.1 ∧ x + d.1 < (W : Int) - 1 ∧ 0 < y + d.2 ∧
      y + d.2 < (H : Int) - 1 ∧ mread m (x + d.1) (y + d.2) = CELL_WALL := by
  unfold GL1.findCarve at h
  have hmem := List.mem_of_find?_eq_some h
  have hp := List.find?_some h
  rw [decide_eq_true_eq] at hp
  exact ⟨hmem, hp.1, hp.2.1, hp.2.2.1, hp.2.2.2.1, hp.2.2.2.2⟩

theorem findCarve_none (m : Maze) (W H : Nat) (x y : Int)
    (dirs : List (Int × Int))
    (h : GL1.findCarve m W H x y dirs = none) :
    ∀ d ∈ dirs, ¬(0 < x + d.1 ∧ x + d.1 < (W : Int) - 1 ∧ 0 < y + d.2 ∧
      y + d.2 < (H : Int) - 1 ∧ mread m (x + d.1) (y + d.2) = CELL_WALL) := by
  intro d hd
  unfold GL1.findCarve at h
  rw [List.find?_eq_none] at h
  have := h d hd
  rwa [decide_eq_true_eq] at this

/-! ## Wall-count lemmas (the carve-loop measure) -/

theorem countP_set_zero_le (row : List Nat) :
    ∀ x : Nat, ((row.set x CELL_EMPTY).countP (· = CELL_WALL)) ≤
      row.countP (· = CELL_WALL) := by
  induction row with
  | nil => intro x; simp
  | cons a row ih =>
      intro x
      rcases x with _ | x
      · rw [List.set_cons_zero, List.countP_cons, List.countP_cons]
        have h0 : (decide (CELL_EMPTY = CELL_WALL)) = false := by decide
        rw [h0, if_neg (by simp : ¬(false = true))]
        split <;> omega
      · rw [List.set_cons_succ, List.countP_cons, List.countP_cons]
        have := ih x
        omega

theorem countP_set_zero_lt (row : List Nat) :
    ∀ x : Nat, x < row.length → row.getD x 0 = CELL_WALL →
      ((row.set x CELL_EMPTY).countP (· = CELL_WALL)) <
        row.countP (· = CELL_WALL) := by
  induction row with
  | nil => intro x hx; simp at hx
  | cons a row ih =>
      intro x hx hw
      rcases x with _ | x
      · rw [List.set_cons_zero, List.countP_cons, List.countP_cons]
        rw [List.getD_cons_zero] at hw
        have h0 : (decide (CELL_EMPTY = CELL_WALL)) = false := by decide
        have h1 : (decide (a = CELL_WALL)) = true := by rw [hw]; exact decide_eq_true rfl
        rw [h0, h1]
        simp
      · rw [List.set_cons_succ, List.countP_cons, List.countP_cons]
        rw [List.getD_cons_succ] at hw
        have := ih x (by simpa using hx) hw
        omega

theorem wallCount_mset_le (m : Maze) :
    ∀ y x : Nat, GL1.wallCount (mset m x y CELL_EMPTY) ≤ GL1.wallCount m := by
  induction m with
  | nil => intro y x; simp [mset]
  | cons row m ih =>
      intro y x
      rcases y with _ | y
      · unfold mset
        rw [List.getD_cons_zero, List.set_cons_zero]
        unfold GL1.wallCount
        rw [List.map_cons, List.map_cons, List.sum_cons, List.sum_cons]
        have := countP_set_zero_le row x
        omega
      · unfold mset
        rw [List.getD_cons_succ, List.set_cons_succ]
        unfold GL1.wallCount
        rw [List.map_cons, List.map_cons, List.sum_cons, List.sum_cons]
        have := ih y x
        unfold mset GL1.wallCount at this
        omega

theorem wallCount_mset_lt (m : Maze) :
    ∀ y x : Nat, y < m.length → x < (m.getD y []).length →
      (m.getD y []).getD x 0 = CELL_WALL →
      GL1.wallCount (mset m x y CELL_EMPTY) < GL1.wallCount m := by
  induction m with
  | nil => intro y x hy; simp at hy
  | cons row m ih =>
      intro y x hy hx hw
      rcases y with _ | y
      · unfold mset
        rw [List.getD_cons_zero, List.set_cons_zero]
        unfold GL1.wallCount
        rw [List.map_cons, List.map_cons, List.sum_cons, List.sum_cons]
        rw [List.getD_cons_zero] at hx hw
        have := countP_set_zero_lt row x hx hw
        omega
      · unfold mset
        rw [List.getD_cons_succ, List.set_cons_succ]
        unfold GL1.wallCount
        rw [List.map_cons, List.map_cons, List.sum_cons, List.sum_cons]
        rw [List.getD_cons_succ] at hx hw
        have := ih y x (by simpa using hy) hx hw
        unfold mset GL1.wallCount at this
        omega

/-- A WALL or EMPTY read is a real stored cell (the out-of-range default
is 2), so a write at that cell is effective. -/
theorem mread_in_structure (m : Maze) (x y : Int)
    (h : mread m x y = CELL_WALL ∨ mread m x y = CELL_EMPTY) :
    0 ≤ x ∧ 0 ≤ y ∧ y.toNat < m.length ∧
      x.toNat < (m.getD y.toNat []).length := by
  have hne : mread m x y ≠ 2 := by
    rcases h with h | h <;> rw [h] <;> norm_num [CELL_WALL, CELL_EMPTY]
  unfold mread at hne
  by_cases hg : 0 ≤ x ∧ 0 ≤ y
  · rw [if_pos hg] at hne
    by_cases hy : y.toNat < m.length
    · by_cases hx : x.toNat < (m.getD y.toNat []).length
      · exact ⟨hg.1, hg.2, hy, hx⟩
      · rw [List.getD_eq_getElem?_getD (m.getD y.toNat []),
          List.getElem?_eq_none (by omega)] at hne
        exact absurd rfl hne
    · rw [List.getD_eq_getElem?_getD m, List.getElem?_eq_none (by omega)] at hne
      simp at hne
  · rw [if_neg hg] at hne
    exact absurd rfl hne

theorem mread_msetI_self_of_cell (m : Maze) (x y : Int) (v : Nat)
    (h : mread m x y = CELL_WALL ∨ mread m x y = CELL_EMPTY) :
    mread (msetI m x y v) x y = v := by
  obtain ⟨hx0, hy0, hy, hx⟩ := mread_in_structure m x y h
  unfold msetI
  rw [if_pos ⟨hx0, hy0⟩]
  have := mread_mset_self m x.toNat y.toNat v hy hx
  rwa [Int.toNat_of_nonneg hx0, Int.toNat_of_nonneg hy0] at this

theorem wallCount_msetI_le (m : Maze) (x y : Int) :
    GL1.wallCount (msetI m x y CELL_EMPTY) ≤ GL1.wallCount m := by
  unfold msetI
  split
  · exact wallCount_mset_le m y.toNat x.toNat
  · exact le_refl _

theorem wallCount_msetI_lt (m : Maze) (x y : Int)
    (h : mread m x y = CELL_WALL) :
    GL1.wallCount (msetI m x y CELL_EMPTY) < GL1.wallCount m := by
  obtain ⟨hx0, hy0, hy, hx⟩ := mread_in_structure m x y (Or.inl h)
  unfold msetI
  rw [if_pos ⟨hx0, hy0⟩]
  apply wallCount_mset_lt m y.toNat x.toNat hy hx
  unfold mread at h
  rw [if_pos ⟨hx0, hy0⟩] at h
  rw [List.getD_eq_getElem?_getD, List.getElem?_eq_getElem hx] at h ⊢
  exact h

theorem wallCount_le_of_shape (W H : Nat) (m : Maze) (hs : MazeShape W H m) :
    GL1.wallCount m ≤ W * H := by
  obtain ⟨hlen, hrow⟩ := hs
  unfold GL1.wallCount
  have hbound : ∀ row ∈ m, row.countP (· = CELL_WALL) ≤ W := by
    intro row hr
    calc row.countP (· = CELL_WALL) ≤ row.length := List.countP_le_length _
    _ = W := (hrow row hr).1
  calc (m.map fun row => row.countP (· = CELL_WALL)).sum
      ≤ m.length * W := sum_map_bound m _ W hbound
    _ = W * H := by rw [hlen]; ring

/-! ## Carve geometry and monotonicity helpers -/

theorem goodPath_mono (m m' : Maze)
    (h : ∀ p : Position, CellEmpty m p → CellEmpty m' p) (s t : Position)
    (l : List Position) (hgp : GoodPath m s t l) : GoodPath m' s t l :=
  ⟨hgp.1, hgp.2.1, hgp.2.2.1, fun p hp => h p (hgp.2.2.2 p hp)⟩

theorem reachIn_mono (m m' : Maze)
    (h : ∀ p : Position, CellEmpty m p → CellEmpty m' p) (s t : Position)
    (n : Nat) (hr : ReachIn m s t n) : ReachIn m' s t n := by
  obtain ⟨l, hgp, hlen⟩ := hr
  exact ⟨l, goodPath_mono m m' h s t l hgp, hlen⟩

theorem cellEmpty_msetI_mono (m : Maze) (x y : Int) (p : Position)
    (h : CellEmpty m p) : CellEmpty (msetI m x y CELL_EMPTY) p := by
  unfold CellEmpty at h ⊢
  rcases mread_msetI_cases m x y CELL_EMPTY p.x p.y with hc | hc <;> rw [hc]
  exact h

theorem mread_initial_wall (W H : Nat) (x y : Int) (hx : 0 ≤ x)
    (hxW : x < (W : Int)) (hy : 0 ≤ y) (hyH : y < (H : Int)) :
    mread (initialMaze W H) x y = CELL_WALL := by
  unfold mread initialMaze
  rw [if_pos ⟨hx, hy⟩]
  have hrow : (List.replicate H (List.replicate W CELL_WALL)).getD y.toNat []
      = List.replicate W CELL_WALL := by
    rw [List.getD_eq_getElem?_getD, List.getElem?_replicate, if_pos (by omega)]
    rfl
  rw [hrow, List.getD_eq_getElem?_getD, List.getElem?_replicate,
    if_pos (by omega)]
  rfl

theorem mread_initial_ne_empty (W H : Nat) (x y : Int) :
    mread (initialMaze W H) x y ≠ CELL_EMPTY := by
  by_cases hw : 0 ≤ x ∧ x < (W : Int) ∧ 0 ≤ y ∧ y < (H : Int)
  · rw [mread_initial_wall W H x y hw.1 hw.2.1 hw.2.2.1 hw.2.2.2]
    norm_num [CELL_WALL, CELL_EMPTY]
  · rw [mread_out_of_window W H _ (mazeShape_initial W H) x y hw]
    norm_num [CELL_EMPTY]

theorem dirs0_cases (d : Int × Int) (hd : d ∈ GL1.dirs0) :
    d = (0, -2) ∨ d = (0, 2) ∨ d = (2, 0) ∨ d = (-2, 0) := by
  simpa [GL1.dirs0] using hd

/-- Geometry of one carve step from an odd-lattice cell: the landing cell
is again on the odd lattice, the connecting cell sits strictly inside the
wall ring but off the odd lattice, and the three cells form a 2-hop
adjacency chain. -/
theorem carve_geometry (W H : Nat) (x y : Int) (d : Int × Int)
    (hd : d ∈ GL1.dirs0) (hodd : OddLat W H (x, y))
    (hg : 0 < x + d.1 ∧ x + d.1 < (W : Int) - 1 ∧ 0 < y + d.2 ∧
      y + d.2 < (H : Int) - 1) :
    OddLat W H (x + d.1, y + d.2) ∧
    (1 ≤ x + d.1 / 2 ∧ x + d.1 / 2 ≤ (W : Int) - 2 ∧ 1 ≤ y + d.2 / 2 ∧
      y + d.2 / 2 ≤ (H : Int) - 2) ∧
    ¬OddLat W H (x + d.1 / 2, y + d.2 / 2) ∧
    Adj ⟨x, y⟩ ⟨x + d.1 / 2, y + d.2 / 2⟩ ∧
    Adj ⟨x + d.1 / 2, y + d.2 / 2⟩ ⟨x + d.1, y + d.2⟩ := by
  obtain ⟨hx2, hy2, hx1, hxW, hy1, hyH⟩ := hodd
  simp only at hx2 hy2 hx1 hxW hy1 hyH
  obtain ⟨hg1, hg2, hg3, hg4⟩ := hg
  rcases dirs0_cases d hd with rfl | rfl | rfl | rfl
  · refine ⟨⟨by simpa using hx2, by simp; omega, by simpa using hx1,
      by simpa using hxW, by simp; omega, by simp; omega⟩,
      ⟨by simp; omega, by simp; omega, by simp; omega, by simp; omega⟩,
      ?_, ?_, ?_⟩
    · intro ⟨h1, h2, _⟩
      simp only at h1 h2
      omega
    · exact (adj_iff _ _).mpr ⟨(0, -1), by simp [bfsDirs], by simp only [Position.mk.injEq]; omega⟩
    · exact (adj_iff _ _).mpr ⟨(0, -1), by simp [bfsDirs], by
        simp only [Position.mk.injEq]
        omega⟩
  · refine ⟨⟨by simpa using hx2, by simp; omega, by simpa using hx1,
      by simpa using hxW, by simp; omega, by simp; omega⟩,
      ⟨by simp; omega, by simp; omega, by simp; omega, by simp; omega⟩,
      ?_, ?_, ?_⟩
    · intro ⟨h1, h2, _⟩
      simp only at h1 h2
      omega
    · exact (adj_iff _ _).mpr ⟨(0, 1), by simp [bfsDirs], by simp only [Position.mk.injEq]; omega⟩
    · exact (adj_iff _ _).mpr ⟨(0, 1), by simp [bfsDirs], by
        simp only [Position.mk.injEq]
        omega⟩
  · refine ⟨⟨by simp; omega, by simpa using hy2, by simp; omega,
      by simp; omega, by simpa using hy1, by simpa using hyH⟩,
      ⟨by simp; omega, by simp; omega, by simp; omega, by simp; omega⟩,
      ?_, ?_, ?_⟩
    · intro ⟨h1, h2, _⟩
      simp only at h1 h2
      omega
    · exact (adj_iff _ _).mpr ⟨(1, 0), by simp [bfsDirs], by simp only [Position.mk.injEq]; omega⟩
    · exact (adj_iff _ _).mpr ⟨(1, 0), by simp [bfsDirs], by
        simp only [Position.mk.injEq]
        omega⟩
  · refine ⟨⟨by simp; omega, by simpa using hy2, by simp; omega,
      by simp; omega, by simpa using hy1, by simpa using hyH⟩,
      ⟨by simp; omega, by simp; omega, by simp; omega, by simp; omega⟩,
      ?_, ?_, ?_⟩
    · intro ⟨h1, h2, _⟩
      simp only at h1 h2
      omega
    · exact (adj_iff _ _).mpr ⟨(-1, 0), by simp [bfsDirs], by simp only [Position.mk.injEq]; omega⟩
    · exact (adj_iff _ _).mpr ⟨(-1, 0), by simp [bfsDirs], by
        simp only [Position.mk.injEq]
        omega⟩

/-! ## The DFS carving loop specification -/

theorem dfsLoopF_spec (rng : Nat → Nat) (W H : Nat) :
    ∀ (fuel : Nat) (s : GL1.DFSState), DFSInv W H s →
      DFSInv W H (GL1.dfsLoopF rng W H fuel s) ∧
      (∀ x y : Int, ¬(1 ≤ x ∧ x ≤ (W : Int) - 2 ∧ 1 ≤ y ∧ y ≤ (H : Int) - 2) →
        mread (GL1.dfsLoopF rng W H fuel s).maze x y = mread s.maze x y) ∧
      (∀ x y : Int, mread s.maze x y = CELL_EMPTY →
        mread (GL1.dfsLoopF rng W H fuel s).maze x y = CELL_EMPTY) ∧
      (2 * GL1.wallCount s.maze + s.stack.length ≤ fuel →
        (GL1.dfsLoopF rng W H fuel s).stack = []) := by
  intro fuel
  induction fuel with
  | zero =>
      intro s hinv
      refine ⟨hinv, fun x y _ => rfl, fun x y h => h, fun hm => ?_⟩
      have : s.stack.length = 0 := by omega
      exact List.length_eq_zero.mp this
  | succ fuel ih =>
      intro s hinv
      rcases hst : s.stack with _ | ⟨⟨x, y⟩, rest⟩
      · have hred : GL1.dfsLoopF rng W H (fuel + 1) s = s := by
          simp only [GL1.dfsLoopF, hst]
        rw [hred]
        exact ⟨hinv, fun x y _ => rfl, fun x y h => h, fun _ => hst⟩
      · have htop : (x, y) ∈ s.stack := by rw [hst]; simp
        have htopodd := hinv.stackOdd (x, y) htop
        have htopempty := hinv.stackEmpty (x, y) htop
        rcases hfc : GL1.findCarve s.maze W H x y
            (GL1.shuffle4 rng s.ctr s.dirs) with _ | d
        · -- backtrack: pop the fully explored top
          have hred : GL1.dfsLoopF rng W H (fuel + 1) s =
              GL1.dfsLoopF rng W H fuel
                ⟨s.maze, s.stack.tail, GL1.shuffle4 rng s.ctr s.dirs,
                  s.ctr + 3⟩ := by
            simp only [GL1.dfsLoopF, hst, hfc, List.tail_cons]
          have hsealed : ∀ d' ∈ GL1.dirs0,
              OddLat W H (x + d'.1, y + d'.2) →
              mread s.maze (x + d'.1) (y + d'.2) = CELL_EMPTY := by
            intro d' hd' hol
            have hmem2 : d' ∈ GL1.shuffle4 rng s.ctr s.dirs := by
              rw [mem_shuffle4]
              exact (hinv.dirsMem d').mpr hd'
            have hng := findCarve_none _ _ _ _ _ _ hfc d' hmem2
            obtain ⟨ho1, ho2, ho3, ho4, ho5, ho6⟩ := hol
            simp only at ho1 ho2 ho3 ho4 ho5 ho6
            have hbox : 0 < x + d'.1 ∧ x + d'.1 < (W : Int) - 1 ∧
                0 < y + d'.2 ∧ y + d'.2 < (H : Int) - 1 :=
              ⟨by omega, by omega, by omega, by omega⟩
            have hnw : mread s.maze (x + d'.1) (y + d'.2) ≠ CELL_WALL := by
              intro hc
              exact hng ⟨hbox.1, hbox.2.1, hbox.2.2.1, hbox.2.2.2, hc⟩
            rcases mazeShape_mread W H s.maze hinv.shape (x + d'.1) (y + d'.2)
              (by omega) (by omega) (by omega) (by omega) with he | hw
            · exact he
            · exact absurd hw hnw
          have hinv' : DFSInv W H ⟨s.maze, s.stack.tail,
              GL1.shuffle4 rng s.ctr s.dirs, s.ctr + 3⟩ := by
            refine ⟨hinv.shape, ?_, ?_, ?_, hinv.startEmpty, hinv.reach, ?_⟩
            · intro c hc
              exact hinv.stackOdd c (List.mem_of_mem_tail hc)
            · intro c hc
              exact hinv.stackEmpty c (List.mem_of_mem_tail hc)
            · intro p
              rw [mem_shuffle4]
              exact hinv.dirsMem p
            · intro c hol hce hcn
              by_cases hct : c = (x, y)
              · subst hct
                intro d' hd' holn
                exact hsealed d' hd' holn
              · have hcn2 : c ∉ s.stack := by
                  rw [hst]
                  intro hmem
                  rcases List.mem_cons.mp hmem with heq | hmem2
                  · exact hct heq
                  · rw [hst] at hcn
                    simp only [List.tail_cons] at hcn
                    exact hcn hmem2
                exact hinv.sealedPop c hol hce hcn2
          obtain ⟨ha, hb, hc, hd2⟩ := ih _ hinv'
          rw [hred]
          refine ⟨ha, hb, hc, fun hm => ?_⟩
          apply hd2
          simp only [hst, List.tail_cons, List.length_cons] at hm ⊢
          omega
        · -- carve: open the neighbour and the connecting cell, push
          obtain ⟨hdmem, hg1, hg2, hg3, hg4, hwall⟩ :=
            findCarve_some _ _ _ _ _ _ _ hfc
          have hd0 : d ∈ GL1.dirs0 := by
            rw [mem_shuffle4] at hdmem
            exact (hinv.dirsMem d).mp hdmem
          obtain ⟨htol, hmidbox, hmidnol, hadj1, hadj2⟩ :=
            carve_geometry W H x y d hd0 htopodd ⟨hg1, hg2, hg3, hg4⟩
          set m1 := msetI s.maze (x + d.1) (y + d.2) CELL_EMPTY with hm1
          set m2 := msetI m1 (x + d.1 / 2) (y + d.2 / 2) CELL_EMPTY with hm2
          have hred : GL1.dfsLoopF rng W H (fuel + 1) s =
              GL1.dfsLoopF rng W H fuel
                ⟨m2, (x + d.1, y + d.2) :: s.stack,
                  GL1.shuffle4 rng s.ctr s.dirs, s.ctr + 3⟩ := by
            simp only [GL1.dfsLoopF, hst, hfc, hm1, hm2]
          have hshape1 : MazeShape W H m1 :=
            mazeShape_msetI W H s.maze hinv.shape _ _ _ (Or.inl rfl)
          have hshape2 : MazeShape W H m2 :=
            mazeShape_msetI W H m1 hshape1 _ _ _ (Or.inl rfl)
          -- the three cells of this carve in the new maze
          have htne : ¬((x + d.1) = (x + d.1 / 2) ∧ (y + d.2) = (y + d.2 / 2)) := by
            intro hc
            apply hmidnol
            rw [← hc.1, ← hc.2]
            exact htol
          have htargetm1 : mread m1 (x + d.1) (y + d.2) = CELL_EMPTY :=
            mread_msetI_self_of_cell s.maze _ _ _ (Or.inl hwall)
          have htargetm2 : mread m2 (x + d.1) (y + d.2) = CELL_EMPTY := by
            rw [hm2, mread_msetI_ne m1 _ _ _ _ _ htne]
            exact htargetm1
          have hmidcell : mread m1 (x + d.1 / 2) (y + d.2 / 2) = CELL_EMPTY ∨
              mread m1 (x + d.1 / 2) (y + d.2 / 2) = CELL_WALL := by
            obtain ⟨hb1, hb2, hb3, hb4⟩ := hmidbox
            exact mazeShape_mread W H m1 hshape1 _ _ (by omega) (by omega)
              (by omega) (by omega)
          have hmidm2 : mread m2 (x + d.1 / 2) (y + d.2 / 2) = CELL_EMPTY :=
            mread_msetI_self_of_cell m1 _ _ _ (Or.symm hmidcell)
          have hmono12 : ∀ p : Position, CellEmpty s.maze p → CellEmpty m2 p := by
            intro p hp
            exact cellEmpty_msetI_mono m1 _ _ p (cellEmpty_msetI_mono s.maze _ _ p hp)
          have hmono_read : ∀ cx cy : Int, mread s.maze cx cy = CELL_EMPTY →
              mread m2 cx cy = CELL_EMPTY := by
            intro cx cy hp
            exact hmono12 ⟨cx, cy⟩ hp
          -- reading an untouched cell
          have hother : ∀ cx cy : Int,
              ¬(cx = x + d.1 ∧ cy = y + d.2) →
              ¬(cx = x + d.1 / 2 ∧ cy = y + d.2 / 2) →
              mread m2 cx cy = mread s.maze cx cy := by
            intro cx cy h1 h2
            rw [hm2, mread_msetI_ne m1 _ _ _ _ _ h2, hm1,
              mread_msetI_ne s.maze _ _ _ _ _ h1]
          have hwc2le : GL1.wallCount m2 ≤ GL1.wallCount m1 :=
            wallCount_msetI_le m1 _ _
          have hwc1lt : GL1.wallCount m1 < GL1.wallCount s.maze :=
            wallCount_msetI_lt s.maze _ _ hwall
          have hwcbound : GL1.wallCount s.maze ≤ W * H :=
            wallCount_le_of_shape W H s.maze hinv.shape
          have hinv' : DFSInv W H ⟨m2, (x + d.1, y + d.2) :: s.stack,
              GL1.shuffle4 rng s.ctr s.dirs, s.ctr + 3⟩ := by
            refine ⟨hshape2, ?_, ?_, ?_, ?_, ?_, ?_⟩
            · intro c hc
              rcases List.mem_cons.mp hc with rfl | hmem
              · exact htol
              · exact hinv.stackOdd c hmem
            · intro c hc
              rcases List.mem_cons.mp hc with rfl | hmem
              · exact htargetm2
              · exact hmono_read c.1 c.2 (hinv.stackEmpty c hmem)
            · intro p
              rw [mem_shuffle4]
              exact hinv.dirsMem p
            · exact hmono_read 1 1 hinv.startEmpty
            · -- reach: every EMPTY odd cell keeps a bounded start path
              intro c hol hce
              by_cases hct : c = (x + d.1, y + d.2)
              · obtain ⟨n, hnle, hr⟩ := hinv.reach (x, y) htopodd htopempty
                have hr2 : ReachIn m2 ⟨1, 1⟩ ⟨x, y⟩ n :=
                  reachIn_mono s.maze m2 hmono12 _ _ n hr
                have hr3 : ReachIn m2 ⟨1, 1⟩ ⟨x + d.1 / 2, y + d.2 / 2⟩ (n + 1) :=
                  reachIn_snoc m2 _ _ _ n hr2 hadj1 hmidm2
                have hr4 : ReachIn m2 ⟨1, 1⟩ ⟨x + d.1, y + d.2⟩ (n + 2) :=
                  reachIn_snoc m2 _ _ _ (n + 1) hr3 hadj2 htargetm2
                refine ⟨n + 2, ?_, ?_⟩
                · show n + 2 ≤ 2 * (W * H - GL1.wallCount m2)
                  omega
                · subst hct
                  exact hr4
              · have hcnmid : ¬(c.1 = x + d.1 / 2 ∧ c.2 = y + d.2 / 2) := by
                  intro hc2
                  apply hmidnol
                  have : c = (x + d.1 / 2, y + d.2 / 2) :=
                    Prod.ext hc2.1 hc2.2
                  rw [← this]
                  exact hol
                have hcnt : ¬(c.1 = x + d.1 ∧ c.2 = y + d.2) := by
                  intro hc2
                  exact hct (Prod.ext hc2.1 hc2.2)
                have hce0 : mread s.maze c.1 c.2 = CELL_EMPTY := by
                  rw [← hother c.1 c.2 hcnt hcnmid]
                  exact hce
                obtain ⟨n, hnle, hr⟩ := hinv.reach c hol hce0
                refine ⟨n, ?_, reachIn_mono s.maze m2 hmono12 _ _ n hr⟩
                show n ≤ 2 * (W * H - GL1.wallCount m2)
                omega
            · -- sealedPop: unchanged for cells off the new stack
              intro c hol hce hcn
              have hct : c ≠ (x + d.1, y + d.2) := by
                intro hc2
                exact hcn (hc2 ▸ List.mem_cons_self _ _)
              have hcs : c ∉ s.stack := fun hm =>
                hcn (List.mem_cons_of_mem _ hm)
              have hcnmid : ¬(c.1 = x + d.1 / 2 ∧ c.2 = y + d.2 / 2) := by
                intro hc2
                apply hmidnol
                have : c = (x + d.1 / 2, y + d.2 / 2) := Prod.ext hc2.1 hc2.2
                rw [← this]
                exact hol
              have hcnt : ¬(c.1 = x + d.1 ∧ c.2 = y + d.2) := by
                intro hc2
                exact hct (Prod.ext hc2.1 hc2.2)
              have hce0 : mread s.maze c.1 c.2 = CELL_EMPTY := by
                rw [← hother c.1 c.2 hcnt hcnmid]
                exact hce
              intro d' hd' holn
              exact hmono_read _ _ (hinv.sealedPop c hol hce0 hcs d' hd' holn)
          obtain ⟨ha, hb, hc, hd2⟩ := ih _ hinv'
          rw [hred]
          refine ⟨ha, ?_, ?_, fun hm => ?_⟩
          · intro cx cy hout
            rw [hb cx cy hout]
            simp only
            apply hother
            · intro hc2
              obtain ⟨ho1, ho2, ho3, ho4, ho5, ho6⟩ := htol
              simp only at ho1 ho2 ho3 ho4 ho5 ho6
              exact hout ⟨by omega, by omega, by omega, by omega⟩
            · intro hc2
              obtain ⟨hb1, hb2, hb3, hb4⟩ := hmidbox
              exact hout ⟨by omega, by omega, by omega, by omega⟩
          · intro cx cy hce
            rw [hc cx cy]
            simp only
            exact hmono_read cx cy hce
          · apply hd2
            simp only [hst, List.length_cons] at hm ⊢
            omega

/-! ## Generated-maze facts -/

theorem oddLat_mk (W H : Nat) (a b : Int)
    (h : a % 2 = 1 ∧ b % 2 = 1 ∧ 1 ≤ a ∧ a ≤ (W : Int) - 2 ∧ 1 ≤ b ∧
      b ≤ (H : Int) - 2) : OddLat W H (a, b) := h

theorem coerceOdd_odd (n : Nat) : GL1.coerceOdd n % 2 = 1 := by
  unfold GL1.coerceOdd
  split <;> omega

theorem coerceOdd_ge (n : Nat) (h : 2 ≤ n) : 3 ≤ GL1.coerceOdd n := by
  unfold GL1.coerceOdd
  split <;> omega

theorem initial_dims (W H : Nat) (hH : 0 < H) :
    mazeWidth (initialMaze W H) = W ∧ mazeHeight (initialMaze W H) = H :=
  ⟨mazeShape_width W H _ (mazeShape_initial W H) hH,
    mazeShape_height W H _ (mazeShape_initial W H)⟩

/-- Everything the claims need about a DFS-generated maze: its shape, the
EMPTY start, every odd-lattice cell EMPTY and start-connected within a
bounded hop count, and the intact outer wall ring. -/
theorem generateMaze_main (rng : Nat → Nat) (w h : Nat) (hw : 2 ≤ w)
    (hh : 2 ≤ h) :
    MazeShape (GL1.coerceOdd w) (GL1.coerceOdd h) (GL1.generateMaze rng w h) ∧
    mread (GL1.generateMaze rng w h) 1 1 = CELL_EMPTY ∧
    (∀ c : Int × Int, OddLat (GL1.coerceOdd w) (GL1.coerceOdd h) c →
      mread (GL1.generateMaze rng w h) c.1 c.2 = CELL_EMPTY ∧
      ∃ n, n ≤ 2 * (GL1.coerceOdd w * GL1.coerceOdd h) ∧
        ReachIn (GL1.generateMaze rng w h) ⟨1, 1⟩ ⟨c.1, c.2⟩ n) ∧
    (∀ x y : Int, 0 ≤ x → x < (GL1.coerceOdd w : Int) → 0 ≤ y →
      y < (GL1.coerceOdd h : Int) →
      (x = 0 ∨ x = (GL1.coerceOdd w : Int) - 1 ∨ y = 0 ∨
        y = (GL1.coerceOdd h : Int) - 1) →
      mread (GL1.generateMaze rng w h) x y = CELL_WALL) := by
  set W := GL1.coerceOdd w with hWdef
  set H := GL1.coerceOdd h with hHdef
  have hW3 : 3 ≤ W := coerceOdd_ge w hw
  have hH3 : 3 ≤ H := coerceOdd_ge h hh
  have hWodd : W % 2 = 1 := coerceOdd_odd w
  have hHodd : H % 2 = 1 := coerceOdd_odd h
  clear_value W H
  have hdims := initial_dims W H (by omega)
  set m0 := mset (initialMaze W H) 1 1 CELL_EMPTY with hm0
  have hshape0 : MazeShape W H m0 :=
    mazeShape_mset W H _ (mazeShape_initial W H) 1 1 _ (Or.inl rfl)
  have hstart0 : mread m0 1 1 = CELL_EMPTY := by
    have hwall : mread (initialMaze W H) 1 1 = CELL_WALL :=
      mread_initial_wall W H 1 1 (by omega) (by omega) (by omega) (by omega)
    have := mread_msetI_self_of_cell (initialMaze W H) 1 1 CELL_EMPTY
      (Or.inl hwall)
    unfold msetI at this
    rw [if_pos (by omega)] at this
    simpa using this
  have honly : ∀ cx cy : Int, mread m0 cx cy = CELL_EMPTY →
      (cx = 1 ∧ cy = 1) := by
    intro cx cy hce
    by_contra hc
    have : mread m0 cx cy = mread (initialMaze W H) cx cy := by
      rw [hm0]
      have : mset (initialMaze W H) 1 1 CELL_EMPTY =
          msetI (initialMaze W H) 1 1 CELL_EMPTY := by
        unfold msetI
        rw [if_pos (by omega)]
        rfl
      rw [this, mread_msetI_ne _ 1 1 _ cx cy hc]
    rw [this] at hce
    exact mread_initial_ne_empty W H cx cy hce
  have hinv0 : DFSInv W H ⟨m0, [((1 : Int), (1 : Int))], GL1.dirs0, 0⟩ := by
    refine ⟨hshape0, ?_, ?_, fun d => Iff.rfl, hstart0, ?_, ?_⟩
    · intro c hc
      rw [List.mem_singleton] at hc
      subst hc
      exact ⟨by simp, by simp, by simp, by simp; omega, by simp, by simp; omega⟩
    · intro c hc
      rw [List.mem_singleton] at hc
      subst hc
      exact hstart0
    · intro c _ hce
      obtain ⟨h1, h2⟩ := honly c.1 c.2 hce
      refine ⟨0, by omega, ?_⟩
      have hc1 : c = ((1 : Int), (1 : Int)) := by
        obtain ⟨a, b⟩ := c
        simp only at h1 h2
        rw [h1, h2]
      rw [hc1]
      exact reachIn_self m0 ⟨1, 1⟩ hstart0
    · intro c _ hce hcn
      obtain ⟨h1, h2⟩ := honly c.1 c.2 hce
      have hc1 : c = ((1 : Int), (1 : Int)) := by
        obtain ⟨a, b⟩ := c
        simp only at h1 h2
        rw [h1, h2]
      exact absurd (by rw [hc1]; exact List.mem_singleton_self _) hcn
  obtain ⟨hfin, hpres, hmono, hstack⟩ := dfsLoopF_spec rng W H
    (2 * GL1.wallCount (initialMaze W H) + 2)
    ⟨m0, [((1 : Int), (1 : Int))], GL1.dirs0, 0⟩ hinv0
  have hMeq : GL1.generateMaze rng w h =
      (GL1.dfsLoopF rng W H (2 * GL1.wallCount (initialMaze W H) + 2)
        ⟨m0, [((1 : Int), (1 : Int))], GL1.dirs0, 0⟩).maze := by
    unfold GL1.generateMaze GL1.generateMazeDFS
    rw [← hWdef, ← hHdef, hdims.1, hdims.2, ← hm0]
    rfl
  set M := (GL1.dfsLoopF rng W H (2 * GL1.wallCount (initialMaze W H) + 2)
    ⟨m0, [((1 : Int), (1 : Int))], GL1.dirs0, 0⟩).maze with hMdef
  have hstackE : (GL1.dfsLoopF rng W H
      (2 * GL1.wallCount (initialMaze W H) + 2)
      ⟨m0, [((1 : Int), (1 : Int))], GL1.dirs0, 0⟩).stack = [] := by
    apply hstack
    simp only [List.length_singleton]
    have := wallCount_mset_le (initialMaze W H) 1 1
    have hm0wc : GL1.wallCount m0 ≤ GL1.wallCount (initialMaze W H) := by
      rw [hm0]
      exact this
    omega
  have hsealed : ∀ c : Int × Int, OddLat W H c → mread M c.1 c.2 = CELL_EMPTY →
      ∀ d ∈ GL1.dirs0, OddLat W H (c.1 + d.1, c.2 + d.2) →
        mread M (c.1 + d.1) (c.2 + d.2) = CELL_EMPTY := by
    intro c hol hce d hd holn
    exact hfin.sealedPop c hol hce (by rw [hstackE]; exact List.not_mem_nil c)
      d hd holn
  have hstartM : mread M 1 1 = CELL_EMPTY := hfin.startEmpty
  -- sweep the odd lattice: column by column along the first row, then rows
  have hrow : ∀ k : Nat, 1 + 2 * (k : Int) ≤ (W : Int) - 2 →
      mread M (1 + 2 * (k : Int)) 1 = CELL_EMPTY := by
    intro k
    induction k with
    | zero => intro _; simpa using hstartM
    | succ k ihk =>
        intro hk
        have hk' : 1 + 2 * (k : Int) ≤ (W : Int) - 2 := by push_cast at hk ⊢; omega
        have hprev := ihk hk'
        have holk : OddLat W H (1 + 2 * (k : Int), 1) :=
          oddLat_mk W H _ _ (by push_cast at hk'; refine ⟨?_, ?_, ?_, ?_, ?_, ?_⟩ <;> omega)
        have holn : OddLat W H (1 + 2 * (k : Int) + 2, 1 + 0) :=
          oddLat_mk W H _ _ (by push_cast at hk; refine ⟨?_, ?_, ?_, ?_, ?_, ?_⟩ <;> omega)
        have := hsealed (1 + 2 * (k : Int), 1) holk hprev (2, 0)
          (by simp [GL1.dirs0]) holn
        simp only at this
        have harith : 1 + 2 * ((k : Int) + 1) = 1 + 2 * (k : Int) + 2 := by ring
        push_cast
        rw [harith]
        exact this
  have hcov : ∀ l k : Nat, 1 + 2 * (k : Int) ≤ (W : Int) - 2 →
      1 + 2 * (l : Int) ≤ (H : Int) - 2 →
      mread M (1 + 2 * (k : Int)) (1 + 2 * (l : Int)) = CELL_EMPTY := by
    intro l
    induction l with
    | zero => intro k hk _; simpa using hrow k hk
    | succ l ihl =>
        intro k hk hl
        have hl' : 1 + 2 * (l : Int) ≤ (H : Int) - 2 := by push_cast at hl ⊢; omega
        have hprev := ihl k hk hl'
        have holk : OddLat W H (1 + 2 * (k : Int), 1 + 2 * (l : Int)) :=
          oddLat_mk W H _ _ (by push_cast at hk hl' ⊢; omega)
        have holn : OddLat W H (1 + 2 * (k : Int) + 0, 1 + 2 * (l : Int) + 2) :=
          oddLat_mk W H _ _ (by push_cast at hk hl ⊢; omega)
        have := hsealed (1 + 2 * (k : Int), 1 + 2 * (l : Int)) holk hprev (0, 2)
          (by simp [GL1.dirs0]) holn
        simp only at this
        have harith : 1 + 2 * ((l : Int) + 1) = 1 + 2 * (l : Int) + 2 := by ring
        push_cast
        rw [harith]
        exact this
  have hall : ∀ c : Int × Int, OddLat W H c → mread M c.1 c.2 = CELL_EMPTY := by
    intro c hol
    obtain ⟨h1, h2, h3, h4, h5, h6⟩ := hol
    obtain ⟨k, hk⟩ : ∃ k : Nat, c.1 = 1 + 2 * (k : Int) :=
      ⟨((c.1 - 1) / 2).toNat, by omega⟩
    obtain ⟨l, hl⟩ : ∃ l : Nat, c.2 = 1 + 2 * (l : Int) :=
      ⟨((c.2 - 1) / 2).toNat, by omega⟩
    rw [hk, hl]
    exact hcov l k (by omega) (by omega)
  rw [hMeq]
  refine ⟨hfin.shape, hstartM, ?_, ?_⟩
  · intro c hol
    refine ⟨hall c hol, ?_⟩
    obtain ⟨n, hn, hr⟩ := hfin.reach c hol (hall c hol)
    exact ⟨n, by omega, hr⟩
  · intro x y hx0 hxW hy0 hyH hborder
    have hout : ¬(1 ≤ x ∧ x ≤ (W : Int) - 2 ∧ 1 ≤ y ∧ y ≤ (H : Int) - 2) := by
      omega
    rw [hpres x y hout]
    have hne11 : ¬(x = 1 ∧ y = 1) := by omega
    have : mread m0 x y = mread (initialMaze W H) x y := by
      rw [hm0]
      have heq : mset (initialMaze W H) 1 1 CELL_EMPTY =
          msetI (initialMaze W H) 1 1 CELL_EMPTY := by
        unfold msetI
        rw [if_pos (by omega)]
        rfl
      rw [heq, mread_msetI_ne _ 1 1 _ x y hne11]
    simp only
    rw [this]
    exact mread_initial_wall W H x y hx0 hxW hy0 hyH

/-! ## GL2 corridor carving -/

theorem wfold_pres (ws : List (Int × Int)) (m : Maze) (x y : Int)
    (h : ∀ c ∈ ws, ¬(x = c.1 ∧ y = c.2)) :
    mread (wfold ws m) x y = mread m x y := by
  induction ws generalizing m with
  | nil => rfl
  | cons a ws ih =>
      have hstep : wfold (a :: ws) m = wfold ws (msetI m a.1 a.2 CELL_EMPTY) := rfl
      rw [hstep, ih _ (fun c hc => h c (List.mem_cons_of_mem a hc)),
        mread_msetI_ne m a.1 a.2 CELL_EMPTY x y (h a (List.mem_cons_self a ws))]

theorem wfold_mono (ws : List (Int × Int)) (m : Maze) (x y : Int)
    (h : mread m x y = CELL_EMPTY) :
    mread (wfold ws m) x y = CELL_EMPTY := by
  induction ws generalizing m with
  | nil => exact h
  | cons a ws ih =>
      have hstep : wfold (a :: ws) m = wfold ws (msetI m a.1 a.2 CELL_EMPTY) := rfl
      rw [hstep]
      apply ih
      rcases mread_msetI_cases m a.1 a.2 CELL_EMPTY x y with hc | hc
      · rw [hc]; exact h
      · exact hc

theorem wfold_shape (W H : Nat) (ws : List (Int × Int)) (m : Maze)
    (hs : MazeShape W H m) : MazeShape W H (wfold ws m) := by
  induction ws generalizing m with
  | nil => exact hs
  | cons a ws ih =>
      exact ih _ (mazeShape_msetI W H m hs a.1 a.2 CELL_EMPTY (Or.inl rfl))

theorem wfold_write (W H : Nat) (ws : List (Int × Int)) (m : Maze)
    (hs : MazeShape W H m) (c : Int × Int) (hc : c ∈ ws)
    (hw : 0 ≤ c.1 ∧ c.1 < (W : Int) ∧ 0 ≤ c.2 ∧ c.2 < (H : Int)) :
    mread (wfold ws m) c.1 c.2 = CELL_EMPTY := by
  induction ws generalizing m with
  | nil => exact absurd hc (List.not_mem_nil c)
  | cons a ws ih =>
      have hstep : wfold (a :: ws) m = wfold ws (msetI m a.1 a.2 CELL_EMPTY) := rfl
      rw [hstep]
      have hs' : MazeShape W H (msetI m a.1 a.2 CELL_EMPTY) :=
        mazeShape_msetI W H m hs a.1 a.2 CELL_EMPTY (Or.inl rfl)
      rcases List.mem_cons.mp hc with heq | hmem
      · subst heq
        apply wfold_mono
        apply mread_msetI_self_of_cell
        rcases mazeShape_mread W H m hs c.1 c.2 hw.1 hw.2.1 hw.2.2.1 hw.2.2.2
          with h | h
        · exact Or.inr h
        · exact Or.inl h
      · exact ih _ hs' hmem

/-- The first corridor loop of `createPath` as a `wfold` (the loop variable
is a `Nat` that the source uses as a coordinate, hence the cast list). -/
theorem fold_corr1_eq (l : List Nat) (m : Maze) (hI : Int) :
    List.foldl (fun acc x => msetI (msetI acc x 1 CELL_EMPTY) x hI CELL_EMPTY) m
        (do let a ← l; pure ((a : Int))) =
      wfold (l.flatMap (fun x => [((x : Int), 1), ((x : Int), hI)])) m := by
  induction l generalizing m with
  | nil => rfl
  | cons a l ih =>
      have hcons : (do let a ← (a :: l); pure ((a : Int))) =
          (a : Int) :: (do let b ← l; pure ((b : Int))) := rfl
      rw [hcons, List.foldl_cons, List.flatMap_cons, ih]
      rfl

/-- The second corridor loop of `createPath` as a `wfold`. -/
theorem fold_corr2_eq (l : List Nat) (m : Maze) (wI : Int) :
    List.foldl (fun acc y => msetI (msetI acc 1 y CELL_EMPTY) wI y CELL_EMPTY) m
        (do let a ← l; pure ((a : Int))) =
      wfold (l.flatMap (fun y => [(1, (y : Int)), (wI, (y : Int))])) m := by
  induction l generalizing m with
  | nil => rfl
  | cons a l ih =>
      have hcons : (do let a ← (a :: l); pure ((a : Int))) =
          (a : Int) :: (do let b ← l; pure ((b : Int))) := rfl
      rw [hcons, List.foldl_cons, List.flatMap_cons, ih]
      rfl

/-- The middle horizontal corridor of `createPath` as a `wfold`. -/
theorem fold_mid1_eq (l : List Nat) (m : Maze) (c : Int) :
    List.foldl (fun acc x => msetI acc x c CELL_EMPTY) m
        (do let a ← l; pure ((a : Int))) =
      wfold (l.map (fun x => ((x : Int), c))) m := by
  induction l generalizing m with
  | nil => rfl
  | cons a l ih =>
      have hcons : (do let a ← (a :: l); pure ((a : Int))) =
          (a : Int) :: (do let b ← l; pure ((b : Int))) := rfl
      rw [hcons, List.foldl_cons, List.map_cons, ih]
      rfl

/-- The middle vertical corridor of `createPath` as a `wfold`. -/
theorem fold_mid2_eq (l : List Nat) (m : Maze) (c : Int) :
    List.foldl (fun acc y => msetI acc c y CELL_EMPTY) m
        (do let a ← l; pure ((a : Int))) =
      wfold (l.map (fun y => (c, (y : Int)))) m := by
  induction l generalizing m with
  | nil => rfl
  | cons a l ih =>
      have hcons : (do let a ← (a :: l); pure ((a : Int))) =
          (a : Int) :: (do let b ← l; pure ((b : Int))) := rfl
      rw [hcons, List.foldl_cons, List.map_cons, ih]
      rfl

/-- A `Nat` list used where `Int` coordinates are expected is cast
elementwise. -/
theorem castList_eq (l : List Nat) :
    (do let a ← l; pure ((a : Int))) = l.map (fun (t : Nat) => (t : Int)) := by
  induction l with
  | nil => rfl
  | cons a l ih =>
      have hcons : (do let a ← (a :: l); pure ((a : Int))) =
          (a : Int) :: (do let b ← l; pure ((b : Int))) := rfl
      rw [hcons, ih, List.map_cons]

/-- Everything the claims need about a GL2 (corridor-carve) maze: its
shape, the EMPTY start and goal cells, an explicit EMPTY path between them
(down column 1, then right along row `h-2`), and the intact outer wall
ring. -/
theorem GL2_maze_main (w h : Nat) (hw : 3 ≤ w) (hh : 3 ≤ h) :
    MazeShape w h (GL2.generateMaze w h) ∧
    mread (GL2.generateMaze w h) 1 1 = CELL_EMPTY ∧
    mread (GL2.generateMaze w h) ((w : Int) - 2) ((h : Int) - 2) =
      CELL_EMPTY ∧
    ReachIn (GL2.generateMaze w h) ⟨1, 1⟩ ⟨(w : Int) - 2, (h : Int) - 2⟩
      (w + h - 6) ∧
    (∀ x y : Int, 0 ≤ x → x < (w : Int) → 0 ≤ y → y < (h : Int) →
      (x = 0 ∨ x = (w : Int) - 1 ∨ y = 0 ∨ y = (h : Int) - 1) →
      mread (GL2.generateMaze w h) x y = CELL_WALL) := by
  have hMeq : GL2.generateMaze w h =
      (if 5 < w ∧ 5 < h then
        msetI (msetI
          (wfold ((List.range' 2 (h - 2 - 2)).map
              (fun y => (((w / 2 : Nat) : Int), (y : Int))))
            (wfold ((List.range' 2 (w - 2 - 2)).map
                (fun x => ((x : Int), ((h / 2 : Nat) : Int))))
              (wfold ((List.range' 1 (h - 1 - 1)).flatMap
                  (fun y => [(1, (y : Int)), ((w : Int) - 2, (y : Int))]))
                (wfold ((List.range' 1 (w - 1 - 1)).flatMap
                    (fun x => [((x : Int), 1), ((x : Int), (h : Int) - 2)]))
                  (initialMaze w h)))))
          3 2 CELL_WALL) ((w : Int) - 4) ((h : Int) - 3) CELL_WALL
      else
        wfold ((List.range' 2 (h - 2 - 2)).map
            (fun y => (((w / 2 : Nat) : Int), (y : Int))))
          (wfold ((List.range' 2 (w - 2 - 2)).map
              (fun x => ((x : Int), ((h / 2 : Nat) : Int))))
            (wfold ((List.range' 1 (h - 1 - 1)).flatMap
                (fun y => [(1, (y : Int)), ((w : Int) - 2, (y : Int))]))
              (wfold ((List.range' 1 (w - 1 - 1)).flatMap
                  (fun x => [((x : Int), 1), ((x : Int), (h : Int) - 2)]))
                (initialMaze w h))))) := by
    simp only [GL2.generateMaze, GL2.createPath]
    rw [fold_corr1_eq, fold_corr2_eq, fold_mid1_eq, fold_mid2_eq]
  set L1 := (List.range' 1 (w - 1 - 1)).flatMap
    (fun x => [((x : Int), 1), ((x : Int), (h : Int) - 2)]) with hL1
  set L2 := (List.range' 1 (h - 1 - 1)).flatMap
    (fun y => [(1, (y : Int)), ((w : Int) - 2, (y : Int))]) with hL2
  set L3 := (List.range' 2 (w - 2 - 2)).map
    (fun x => ((x : Int), ((h / 2 : Nat) : Int))) with hL3
  set L4 := (List.range' 2 (h - 2 - 2)).map
    (fun y => (((w / 2 : Nat) : Int), (y : Int))) with hL4
  set m1 := wfold L1 (initialMaze w h) with hm1
  set m2 := wfold L2 m1 with hm2
  set m3 := wfold L3 m2 with hm3
  set m4 := wfold L4 m3 with hm4
  have hshape1 : MazeShape w h m1 := wfold_shape w h L1 _ (mazeShape_initial w h)
  have hshape2 : MazeShape w h m2 := wfold_shape w h L2 _ hshape1
  have hshape3 : MazeShape w h m3 := wfold_shape w h L3 _ hshape2
  have hshape4 : MazeShape w h m4 := wfold_shape w h L4 _ hshape3
  -- the left column carved by the second corridor loop
  have hcol4 : ∀ y : Int, 1 ≤ y → y ≤ (h : Int) - 2 →
      mread m4 1 y = CELL_EMPTY := by
    intro y hy1 hy2
    rw [hm4, hm3]
    apply wfold_mono L4
    apply wfold_mono L3
    rw [hm2]
    have hmem : ((1 : Int), y) ∈ L2 := by
      rw [hL2, List.mem_flatMap]
      refine ⟨y.toNat, ?_, ?_⟩
      · rw [List.mem_range'_1]
        omega
      · have hcast : ((y.toNat : Nat) : Int) = y := Int.toNat_of_nonneg (by omega)
        rw [hcast]
        exact List.mem_cons_self _ _
    exact wfold_write w h L2 m1 hshape1 (1, y) hmem
      ⟨by omega, by omega, by omega, by omega⟩
  -- the bottom interior row carved by the first corridor loop
  have hrow4 : ∀ x : Int, 1 ≤ x → x ≤ (w : Int) - 2 →
      mread m4 x ((h : Int) - 2) = CELL_EMPTY := by
    intro x hx1 hx2
    rw [hm4, hm3, hm2]
    apply wfold_mono L4
    apply wfold_mono L3
    apply wfold_mono L2
    rw [hm1]
    have hmem : (x, (h : Int) - 2) ∈ L1 := by
      rw [hL1, List.mem_flatMap]
      refine ⟨x.toNat, ?_, ?_⟩
      · rw [List.mem_range'_1]
        omega
      · have hcast : ((x.toNat : Nat) : Int) = x := Int.toNat_of_nonneg (by omega)
        rw [hcast]
        exact List.mem_cons_of_mem _ (List.mem_cons_self _ _)
    exact wfold_write w h L1 (initialMaze w h) (mazeShape_initial w h)
      (x, (h : Int) - 2) hmem ⟨by omega, by omega, by omega, by omega⟩
  -- no corridor loop ever writes a border cell
  have hpres4 : ∀ x y : Int,
      (x = 0 ∨ x = (w : Int) - 1 ∨ y = 0 ∨ y = (h : Int) - 1) →
      mread m4 x y = mread (initialMaze w h) x y := by
    intro x y hb
    have hn1 : ∀ c ∈ L1, ¬(x = c.1 ∧ y = c.2) := by
      intro c hc
      rw [hL1, List.mem_flatMap] at hc
      obtain ⟨t, ht, hc⟩ := hc
      rw [List.mem_range'_1] at ht
      simp only [List.mem_cons, List.not_mem_nil, or_false] at hc
      rcases hc with rfl | rfl
      · show ¬(x = (t : Int) ∧ y = 1); omega
      · show ¬(x = (t : Int) ∧ y = (h : Int) - 2); omega
    have hn2 : ∀ c ∈ L2, ¬(x = c.1 ∧ y = c.2) := by
      intro c hc
      rw [hL2, List.mem_flatMap] at hc
      obtain ⟨t, ht, hc⟩ := hc
      rw [List.mem_range'_1] at ht
      simp only [List.mem_cons, List.not_mem_nil, or_false] at hc
      rcases hc with rfl | rfl
      · show ¬(x = 1 ∧ y = (t : Int)); omega
      · show ¬(x = (w : Int) - 2 ∧ y = (t : Int)); omega
    have hn3 : ∀ c ∈ L3, ¬(x = c.1 ∧ y = c.2) := by
      intro c hc
      rw [hL3, castList_eq, List.map_map, List.mem_map] at hc
      obtain ⟨t, ht, rfl⟩ := hc
      rw [List.mem_range'_1] at ht
      show ¬(x = (t : Int) ∧ y = ((h / 2 : Nat) : Int)); omega
    have hn4 : ∀ c ∈ L4, ¬(x = c.1 ∧ y = c.2) := by
      intro c hc
      rw [hL4, castList_eq, List.map_map, List.mem_map] at hc
      obtain ⟨t, ht, rfl⟩ := hc
      rw [List.mem_range'_1] at ht
      show ¬(x = ((w / 2 : Nat) : Int) ∧ y = (t : Int)); omega
    rw [hm4, wfold_pres L4 m3 x y hn4, hm3, wfold_pres L3 m2 x y hn3,
      hm2, wfold_pres L2 m1 x y hn2, hm1, wfold_pres L1 _ x y hn1]
  -- transfer through the strategic-wall stage
  have hpresM : ∀ x y : Int,
      (5 < w ∧ 5 < h →
        ¬(x = 3 ∧ y = 2) ∧ ¬(x = (w : Int) - 4 ∧ y = (h : Int) - 3)) →
      mread (GL2.generateMaze w h) x y = mread m4 x y := by
    intro x y hcond
    rw [hMeq]
    split
    · rename_i hc5
      obtain ⟨h1, h2⟩ := hcond hc5
      rw [mread_msetI_ne _ _ _ _ x y h2, mread_msetI_ne _ _ _ _ x y h1]
    · rfl
  have hshapeM : MazeShape w h (GL2.generateMaze w h) := by
    rw [hMeq]
    split
    · exact mazeShape_msetI w h _ (mazeShape_msetI w h _ hshape4 3 2 CELL_WALL
        (Or.inr rfl)) _ _ CELL_WALL (Or.inr rfl)
    · exact hshape4
  have hcolM : ∀ y : Int, 1 ≤ y → y ≤ (h : Int) - 2 →
      mread (GL2.generateMaze w h) 1 y = CELL_EMPTY := by
    intro y hy1 hy2
    rw [hpresM 1 y (fun hc5 => ⟨by omega, by omega⟩)]
    exact hcol4 y hy1 hy2
  have hrowM : ∀ x : Int, 1 ≤ x → x ≤ (w : Int) - 2 →
      mread (GL2.generateMaze w h) x ((h : Int) - 2) = CELL_EMPTY := by
    intro x hx1 hx2
    rw [hpresM x ((h : Int) - 2) (fun hc5 => ⟨by omega, by omega⟩)]
    exact hrow4 x hx1 hx2
  -- walk the explicit path: down column 1, then right along row h-2
  have hreach1 : ∀ j : Nat, (j : Int) ≤ (h : Int) - 3 →
      ReachIn (GL2.generateMaze w h) ⟨1, 1⟩ ⟨1, 1 + (j : Int)⟩ j := by
    intro j
    induction j with
    | zero =>
        intro _
        have h0 : (⟨1, 1 + ((0 : Nat) : Int)⟩ : Position) = ⟨1, 1⟩ :=
          position_ext _ _ rfl (by norm_num)
        rw [h0]
        exact reachIn_self _ ⟨1, 1⟩ (hcolM 1 (by omega) (by omega))
    | succ j ih =>
        intro hj
        have hj' : (j : Int) ≤ (h : Int) - 3 := by push_cast at hj ⊢; omega
        have hprev := ih hj'
        have hadj := adj_of_dir ⟨1, 1 + (j : Int)⟩ (0, 1) (by simp [bfsDirs])
        have hpe : (⟨(1 : Int) + 0, 1 + (j : Int) + 1⟩ : Position) =
            ⟨1, 1 + ((j + 1 : Nat) : Int)⟩ :=
          position_ext _ _ (by norm_num) (by push_cast; ring)
        rw [hpe] at hadj
        refine reachIn_snoc _ _ _ _ j hprev hadj ?_
        show mread (GL2.generateMaze w h) 1 (1 + ((j + 1 : Nat) : Int)) =
          CELL_EMPTY
        apply hcolM <;> push_cast <;> push_cast at hj <;> omega
  have hreach2 : ∀ i : Nat, (i : Int) ≤ (w : Int) - 3 →
      ReachIn (GL2.generateMaze w h) ⟨1, 1⟩ ⟨1 + (i : Int), (h : Int) - 2⟩
        ((h - 3) + i) := by
    intro i
    induction i with
    | zero =>
        intro _
        have hbase := hreach1 (h - 3) (by push_cast; omega)
        have hpe : (⟨1, 1 + ((h - 3 : Nat) : Int)⟩ : Position) =
            ⟨1 + ((0 : Nat) : Int), (h : Int) - 2⟩ :=
          position_ext _ _ (by norm_num) (by push_cast; omega)
        rw [hpe] at hbase
        exact hbase
    | succ i ih =>
        intro hi
        have hi' : (i : Int) ≤ (w : Int) - 3 := by push_cast at hi ⊢; omega
        have hprev := ih hi'
        have hadj := adj_of_dir ⟨1 + (i : Int), (h : Int) - 2⟩ (1, 0)
          (by simp [bfsDirs])
        have hpe : (⟨1 + (i : Int) + 1, (h : Int) - 2 + 0⟩ : Position) =
            ⟨1 + ((i + 1 : Nat) : Int), (h : Int) - 2⟩ :=
          position_ext _ _ (by push_cast; ring) (by norm_num)
        rw [hpe] at hadj
        refine reachIn_snoc _ _ _ _ _ hprev hadj ?_
        show mread (GL2.generateMaze w h) (1 + ((i + 1 : Nat) : Int))
          ((h : Int) - 2) = CELL_EMPTY
        apply hrowM <;> push_cast <;> push_cast at hi <;> omega
  refine ⟨hshapeM, hcolM 1 (by omega) (by omega), ?_, ?_, ?_⟩
  · exact hrowM ((w : Int) - 2) (by omega) (by omega)
  · have hfin := hreach2 (w - 3) (by push_cast; omega)
    have hpe : (⟨1 + ((w - 3 : Nat) : Int), (h : Int) - 2⟩ : Position) =
        ⟨(w : Int) - 2, (h : Int) - 2⟩ :=
      position_ext _ _ (by push_cast; omega) rfl
    rw [hpe] at hfin
    have hidx : (h - 3) + (w - 3) = w + h - 6 := by omega
    rw [hidx] at hfin
    exact hfin
  · intro x y hx0 hxw hy0 hyh hb
    rw [hpresM x y (fun hc5 => ⟨by omega, by omega⟩), hpres4 x y hb]
    exact mread_initial_wall w h x y hx0 hxw hy0 hyh

/-! ## Concrete shortest distances in the example maze -/

/-- From (1,1) the goal (3,3) of `exMaze` is 4 hops away. -/
theorem exMaze_shortest_11 : IsShortest exMaze ⟨1, 1⟩ ⟨3, 3⟩ 4 := by
  have hreach : ReachableG exMaze ⟨1, 1⟩ ⟨3, 3⟩ :=
    ⟨4, [⟨1, 1⟩, ⟨1, 2⟩, ⟨1, 3⟩, ⟨2, 3⟩, ⟨3, 3⟩], by decide, by decide⟩
  have h := (bfsDist_correct exMaze ⟨1, 1⟩ ⟨3, 3⟩ (by decide) (by decide)).1 hreach
  have hb : bfsDist exMaze ⟨1, 1⟩ ⟨3, 3⟩ = 4 := by decide
  rwa [hb] at h

/-- From the dead end (2,1) the goal (3,3) of `exMaze` is 5 hops away (the
path must double back through (1,1)). -/
theorem exMaze_shortest_21 : IsShortest exMaze ⟨2, 1⟩ ⟨3, 3⟩ 5 := by
  have hreach : ReachableG exMaze ⟨2, 1⟩ ⟨3, 3⟩ :=
    ⟨5, [⟨2, 1⟩, ⟨1, 1⟩, ⟨1, 2⟩, ⟨1, 3⟩, ⟨2, 3⟩, ⟨3, 3⟩], by decide, by decide⟩
  have h := (bfsDist_correct exMaze ⟨2, 1⟩ ⟨3, 3⟩ (by decide) (by decide)).1 hreach
  have hb : bfsDist exMaze ⟨2, 1⟩ ⟨3, 3⟩ = 5 := by decide
  rwa [hb] at h

/-! # Claim theorems -/

/-- Claim C1 (amended). When GL1's `movePlayer` advances into an EMPTY
cell, the returned `distanceToGoal` is the Manhattan distance
(`getDistance`) from the new position to the goal — not a BFS recomputed
on the post-move state — and `moveCount` is incremented by exactly 1. -/
theorem C1_theorem (st : GameState) (dir : Direction)
    (h : GL1.hitWallB st dir = false) :
    (GL1.movePlayer st dir).2.distanceToGoal =
      getDistance (getNewPosition st.playerPosition dir) st.goalPosition ∧
    (GL1.movePlayer st dir).1.moveCount = st.moveCount + 1 := by
  rw [GL1_movePlayer_advanced st dir h]
  refine ⟨rfl, ?_⟩
  dsimp only
  split <;> rfl

/-- Claim C1, witness: the amended theorem applied to the example state,
moving east. -/
theorem C1_witness :
    GL1.hitWallB exSt Direction.east = false ∧
    ((GL1.movePlayer exSt Direction.east).2.distanceToGoal =
      getDistance (getNewPosition exSt.playerPosition Direction.east)
        exSt.goalPosition ∧
    (GL1.movePlayer exSt Direction.east).1.moveCount = exSt.moveCount + 1) :=
  ⟨by decide, C1_theorem exSt Direction.east (by decide)⟩

/-- Claim C1, counterexample to the literal claim: stepping east from
(1,1) in `exMaze` enters a dead end; the outcome reports distance 3 (the
Manhattan distance), while a from-scratch BFS on the post-move state
gives 5, the true shortest hop count from the new position (2,1). -/
theorem C1_counterexample :
    (GL1.movePlayer exSt Direction.east).1.playerPosition = ⟨2, 1⟩ ∧
    (GL1.movePlayer exSt Direction.east).1.maze = exMaze ∧
    (GL1.movePlayer exSt Direction.east).1.goalPosition = ⟨3, 3⟩ ∧
    (GL1.movePlayer exSt Direction.east).2.distanceToGoal = 3 ∧
    bfsDist exMaze ⟨2, 1⟩ ⟨3, 3⟩ = 5 ∧
    IsShortest exMaze ⟨2, 1⟩ ⟨3, 3⟩ 5 ∧
    (GL1.movePlayer exSt Direction.east).2.distanceToGoal ≠
      bfsDist (GL1.movePlayer exSt Direction.east).1.maze
        (GL1.movePlayer exSt Direction.east).1.playerPosition
        (GL1.movePlayer exSt Direction.east).1.goalPosition :=
  ⟨by decide, by decide, by decide, by decide, by decide,
    exMaze_shortest_21, by decide⟩

/-- Claim C2 (amended). In both variants `isCorrectDirection` compares the
Manhattan distance of the prospective new position against the variant's
`getDistanceToGoal` of the pre-move state (BFS for GL1, Manhattan for
GL2); it is not a comparison of shortest-path distances after and before
the move. On a blocked move it is false. -/
theorem C2_theorem (st : GameState) (dir : Direction) :
    (GL1.hitWallB st dir = true →
      (GL1.movePlayer st dir).2.isCorrectDirection = false) ∧
    (GL1.hitWallB st dir = false →
      ((GL1.movePlayer st dir).2.isCorrectDirection = true ↔
        getDistance (getNewPosition st.playerPosition dir) st.goalPosition <
          GL1.getDistanceToGoal st)) ∧
    (GL2.hitWallB st dir = true →
      (GL2.movePlayer st dir).2.isCorrectDirection = false) ∧
    (GL2.hitWallB st dir = false →
      ((GL2.movePlayer st dir).2.isCorrectDirection = true ↔
        getDistance (getNewPosition st.playerPosition dir) st.goalPosition <
          getDistance st.playerPosition st.goalPosition)) := by
  refine ⟨?_, ?_, ?_, ?_⟩
  · intro h
    rw [GL1_movePlayer_blocked st dir h]
  · intro h
    rw [GL1_movePlayer_advanced st dir h]
    exact decide_eq_true_iff
  · intro h
    rw [GL2_movePlayer_blocked st dir h]
  · intro h
    rw [GL2_movePlayer_advanced st dir h]
    exact decide_eq_true_iff

/-- Claim C2, witness: the amended theorem applied to the example state,
moving east (the flag comes out true because 3 < 4). -/
theorem C2_witness :
    GL1.hitWallB exSt Direction.east = false ∧
    (GL1.movePlayer exSt Direction.east).2.isCorrectDirection = true :=
  ⟨by decide, ((C2_theorem exSt Direction.east).2.1 (by decide)).mpr (by decide)⟩

/-- Claim C2, counterexample to the literal claim: moving east from (1,1)
in `exMaze` raises the true shortest-path distance from 4 to 5 (a strict
increase), yet the returned flag is true. -/
theorem C2_counterexample :
    (GL1.movePlayer exSt Direction.east).2.isCorrectDirection = true ∧
    (GL1.movePlayer exSt Direction.east).2.success = true ∧
    (GL1.movePlayer exSt Direction.east).1.playerPosition = ⟨2, 1⟩ ∧
    (GL1.movePlayer exSt Direction.east).1.maze = exMaze ∧
    (GL1.movePlayer exSt Direction.east).1.goalPosition = ⟨3, 3⟩ ∧
    IsShortest exMaze ⟨1, 1⟩ ⟨3, 3⟩ 4 ∧
    IsShortest exMaze ⟨2, 1⟩ ⟨3, 3⟩ 5 ∧
    4 < 5 :=
  ⟨by decide, by decide, by decide, by decide, by decide,
    exMaze_shortest_11, exMaze_shortest_21, by decide⟩

/-- Claim C3 (amended). The engine is not terminal: `movePlayer` never
consults `gameWon`, so whenever the target cell is EMPTY the move succeeds
and mutates the state even after a win; `gameWon` is the latch
`old || (advanced && arrived)`. -/
theorem C3_theorem (st : GameState) (dir : Direction) :
    (GL1.hitWallB st dir = false →
      (GL1.movePlayer st dir).2.success = true ∧
      (GL1.movePlayer st dir).1.playerPosition =
        getNewPosition st.playerPosition dir ∧
      (GL1.movePlayer st dir).1.moveCount = st.moveCount + 1) ∧
    (GL1.movePlayer st dir).1.gameWon =
      (st.gameWon || (!GL1.hitWallB st dir &&
        decide (getNewPosition st.playerPosition dir = st.goalPosition))) := by
  constructor
  · intro h
    rw [GL1_movePlayer_advanced st dir h]
    refine ⟨rfl, ?_, ?_⟩ <;> (dsimp only; split <;> rfl)
  · cases h : GL1.hitWallB st dir with
    | true =>
        rw [GL1_movePlayer_blocked st dir h]
        simp
    | false =>
        rw [GL1_movePlayer_advanced st dir h]
        dsimp only
        split
        · rename_i hg
          simp [hg]
        · rename_i hg
          simp [hg]

/-- Claim C3, witness: the amended theorem applied to an already-won
state, moving west. -/
theorem C3_witness :
    GL1.hitWallB exWonSt Direction.west = false ∧
    (GL1.movePlayer exWonSt Direction.west).2.success = true :=
  ⟨by decide, ((C3_theorem exWonSt Direction.west).1 (by decide)).1⟩

/-- Claim C3, counterexample to the literal claim: from a state with
`gameWon = true` (player sitting on the goal), moving west succeeds and
changes the state, so the engine is not terminal after a win. -/
theorem C3_counterexample :
    exWonSt.gameWon = true ∧
    (GL1.movePlayer exWonSt Direction.west).2.success = true ∧
    (GL1.movePlayer exWonSt Direction.west).1.playerPosition = ⟨2, 3⟩ ∧
    (GL1.movePlayer exWonSt Direction.west).1.moveCount = 8 ∧
    (GL1.movePlayer exWonSt Direction.west).1 ≠ exWonSt := by
  refine ⟨by decide, by decide, by decide, by decide, by decide⟩

/-- Claim C4. Both carvers produce solvable grids: the start (1,1) and the
grid's far interior corner are EMPTY and joined by a path of 4-adjacent
EMPTY cells, so the BFS distance between them is below the 9999 sentinel
(the sentinel clause needs the stated size bound, since in a huge grid a
genuine shortest path could reach 9999 hops on its own). -/
theorem C4_theorem (rng : Nat → Nat) (w1 h1 w2 h2 : Nat)
    (ha : 2 ≤ w1) (hb : 2 ≤ h1) (hc : 3 ≤ w2) (hd : 3 ≤ h2) :
    mread (GL1.generateMaze rng w1 h1) 1 1 = CELL_EMPTY ∧
    mread (GL1.generateMaze rng w1 h1) ((GL1.coerceOdd w1 : Int) - 2)
      ((GL1.coerceOdd h1 : Int) - 2) = CELL_EMPTY ∧
    ReachableG (GL1.generateMaze rng w1 h1) ⟨1, 1⟩
      ⟨(GL1.coerceOdd w1 : Int) - 2, (GL1.coerceOdd h1 : Int) - 2⟩ ∧
    (2 * (GL1.coerceOdd w1 * GL1.coerceOdd h1) < 9999 →
      bfsDist (GL1.generateMaze rng w1 h1) ⟨1, 1⟩
        ⟨(GL1.coerceOdd w1 : Int) - 2, (GL1.coerceOdd h1 : Int) - 2⟩ < 9999) ∧
    mread (GL2.generateMaze w2 h2) 1 1 = CELL_EMPTY ∧
    mread (GL2.generateMaze w2 h2) ((w2 : Int) - 2) ((h2 : Int) - 2) =
      CELL_EMPTY ∧
    ReachableG (GL2.generateMaze w2 h2) ⟨1, 1⟩
      ⟨(w2 : Int) - 2, (h2 : Int) - 2⟩ ∧
    (w2 + h2 - 6 < 9999 →
      bfsDist (GL2.generateMaze w2 h2) ⟨1, 1⟩
        ⟨(w2 : Int) - 2, (h2 : Int) - 2⟩ < 9999) := by
  obtain ⟨hshape1, hstart1, hodd1, hborder1⟩ := generateMaze_main rng w1 h1 ha hb
  obtain ⟨hshape2, hstart2, hgoal2, hpath2, hborder2⟩ := GL2_maze_main w2 h2 hc hd
  have hW3 : 3 ≤ GL1.coerceOdd w1 := coerceOdd_ge w1 ha
  have hH3 : 3 ≤ GL1.coerceOdd h1 := coerceOdd_ge h1 hb
  have hWo : GL1.coerceOdd w1 % 2 = 1 := coerceOdd_odd w1
  have hHo : GL1.coerceOdd h1 % 2 = 1 := coerceOdd_odd h1
  have holg : OddLat (GL1.coerceOdd w1) (GL1.coerceOdd h1)
      ((GL1.coerceOdd w1 : Int) - 2, (GL1.coerceOdd h1 : Int) - 2) :=
    oddLat_mk _ _ _ _ (by refine ⟨?_, ?_, ?_, ?_, ?_, ?_⟩ <;> omega)
  obtain ⟨hgE, n, hn, hreach1⟩ := hodd1 _ holg
  refine ⟨hstart1, hgE, ⟨n, hreach1⟩, ?_, hstart2, hgoal2,
    ⟨w2 + h2 - 6, hpath2⟩, ?_⟩
  · intro hsize
    have hcor := (bfsDist_correct (GL1.generateMaze rng w1 h1) ⟨1, 1⟩
      ⟨(GL1.coerceOdd w1 : Int) - 2, (GL1.coerceOdd h1 : Int) - 2⟩
      (mazeShape_rect _ _ _ hshape1) hstart1).1 ⟨n, hreach1⟩
    have hle := hcor.2 n hreach1
    omega
  · intro hsize
    have hcor := (bfsDist_correct (GL2.generateMaze w2 h2) ⟨1, 1⟩
      ⟨(w2 : Int) - 2, (h2 : Int) - 2⟩
      (mazeShape_rect _ _ _ hshape2) hstart2).1 ⟨w2 + h2 - 6, hpath2⟩
    have hle := hcor.2 _ hpath2
    omega

/-- Claim C4, witness: both carvers at concrete sizes. -/
theorem C4_witness :
    mread (GL1.generateMaze rng0 4 4) 1 1 = CELL_EMPTY ∧
    mread (GL2.generateMaze 7 7) 1 1 = CELL_EMPTY :=
  ⟨(C4_theorem rng0 4 4 7 7 (by decide) (by decide) (by decide)
      (by decide)).1,
   (C4_theorem rng0 4 4 7 7 (by decide) (by decide) (by decide)
      (by decide)).2.2.2.2.1⟩

/-- Claim C5 (amended). Even requested dimensions are coerced to the next
odd value (with no lower clamp at 5: a request of 2 gives 3), and the goal
position is computed from the requested, uncoerced dimensions — so a
`(4,4)` request yields a 5×5 grid whose goal is `(2,2)`, not `(3,3)`. -/
theorem C5_theorem (rng : Nat → Nat) (w h : Nat) (hw : 2 ≤ w) (hh : 2 ≤ h) :
    mazeWidth (GL1.generateMaze rng w h) = GL1.coerceOdd w ∧
    mazeHeight (GL1.generateMaze rng w h) = GL1.coerceOdd h ∧
    (GL1.mkGameLogic rng w h).goalPosition =
      ⟨(w : Int) - 2, (h : Int) - 2⟩ := by
  obtain ⟨hshape, -, -, -⟩ := generateMaze_main rng w h hw hh
  have hH3 : 3 ≤ GL1.coerceOdd h := coerceOdd_ge h hh
  exact ⟨mazeShape_width _ _ _ hshape (by omega),
    mazeShape_height _ _ _ hshape, rfl⟩

/-- Claim C5, witness: the amended theorem at the `(4,4)` scenario. -/
theorem C5_witness :
    mazeWidth (GL1.generateMaze rng0 4 4) = GL1.coerceOdd 4 ∧
    (GL1.mkGameLogic rng0 4 4).goalPosition = ⟨2, 2⟩ :=
  ⟨(C5_theorem rng0 4 4 (by decide) (by decide)).1,
   (C5_theorem rng0 4 4 (by decide) (by decide)).2.2⟩

/-- Claim C5, counterexample to the literal claim: requesting `(4,4)` does
give a 5×5 grid, but the goal is `(2,2)` (not the claimed `(3,3)`), and
`(2,2)` is even a WALL cell of that grid; moreover a `(2,2)` request gives
a 3×3 grid, refuting the "at least 5" clamp. -/
theorem C5_counterexample :
    (GL1.mkGameLogic rng0 4 4).goalPosition = ⟨2, 2⟩ ∧
    ((⟨2, 2⟩ : Position) ≠ ⟨3, 3⟩) ∧
    mazeWidth (GL1.mkGameLogic rng0 4 4).maze = 5 ∧
    mazeHeight (GL1.mkGameLogic rng0 4 4).maze = 5 ∧
    mread (GL1.mkGameLogic rng0 4 4).maze 2 2 = CELL_WALL ∧
    mazeWidth (GL1.generateMaze rng0 2 2) = 3 :=
  ⟨by decide, by decide, by decide, by decide, by decide, by decide⟩

/-- Claim C6 (amended). A blocked move mutates nothing and returns the
blocked outcome carrying the variant's own `getDistanceToGoal` of the
unchanged state: for GL1 that is the BFS shortest distance (certified
below), but for GL2 it is the Manhattan distance, which need not be the
shortest-path distance. -/
theorem C6_theorem (st : GameState) (dir : Direction)
    (h : GL1.hitWallB st dir = true) :
    GL1.movePlayer st dir =
      (st, ⟨false, true, false, GL1.getDistanceToGoal st⟩) ∧
    GL2.movePlayer st dir =
      (st, ⟨false, true, false,
        getDistance st.playerPosition st.goalPosition⟩) ∧
    (Rect st.maze → CellEmpty st.maze st.playerPosition →
      ReachableG st.maze st.playerPosition st.goalPosition →
      IsShortest st.maze st.playerPosition st.goalPosition
        (GL1.getDistanceToGoal st)) := by
  have h2 : GL2.hitWallB st dir = true := h
  refine ⟨GL1_movePlayer_blocked st dir h, GL2_movePlayer_blocked st dir h2, ?_⟩
  intro hrect hse hreach
  exact (bfsDist_correct st.maze st.playerPosition st.goalPosition
    hrect hse).1 hreach

/-- Claim C6, witness: a northward move into the wall above (2,1). -/
theorem C6_witness :
    GL1.hitWallB exSt2 Direction.north = true ∧
    GL1.movePlayer exSt2 Direction.north =
      (exSt2, ⟨false, true, false, GL1.getDistanceToGoal exSt2⟩) :=
  ⟨by decide, (C6_theorem exSt2 Direction.north (by decide)).1⟩

/-- Claim C6, counterexample to the literal claim: GL2's blocked outcome
reports 3 (the Manhattan distance from (2,1) to (3,3)), while the true
shortest-path distance in that grid is 5. -/
theorem C6_counterexample :
    exSt2.maze = exMaze ∧
    exSt2.playerPosition = ⟨2, 1⟩ ∧
    exSt2.goalPosition = ⟨3, 3⟩ ∧
    GL2.movePlayer exSt2 Direction.north =
      (exSt2, ⟨false, true, false, 3⟩) ∧
    IsShortest exMaze ⟨2, 1⟩ ⟨3, 3⟩ 5 ∧
    (3 : Nat) ≠ 5 :=
  ⟨by decide, by decide, by decide, by decide, exMaze_shortest_21, by decide⟩

/-- Claim C7. GL1's `getDistanceToGoal` is the BFS of `bfsDist`
(4-connected EMPTY cells, FIFO queue, mark on enqueue); when the target is
reachable it returns exactly the minimum hop count, and when it is
unreachable it returns the 9999 sentinel. -/
theorem C7_theorem (m : Maze) (s t : Position) (hrect : Rect m)
    (hse : CellEmpty m s) :
    (∀ st : GameState, GL1.getDistanceToGoal st =
      bfsDist st.maze st.playerPosition st.goalPosition) ∧
    (ReachableG m s t → IsShortest m s t (bfsDist m s t)) ∧
    (¬ReachableG m s t → bfsDist m s t = 9999) :=
  ⟨fun _ => rfl, (bfsDist_correct m s t hrect hse).1,
    (bfsDist_correct m s t hrect hse).2⟩

/-- Claim C7, witness: the theorem at the example maze, with the minimum
hop count realised by an explicit path. -/
theorem C7_witness :
    GL1.getDistanceToGoal exSt =
      bfsDist exSt.maze exSt.playerPosition exSt.goalPosition ∧
    IsShortest exMaze ⟨1, 1⟩ ⟨3, 3⟩ (bfsDist exMaze ⟨1, 1⟩ ⟨3, 3⟩) :=
  ⟨(C7_theorem exMaze ⟨1, 1⟩ ⟨3, 3⟩ (by decide) (by decide)).1 exSt,
   (C7_theorem exMaze ⟨1, 1⟩ ⟨3, 3⟩ (by decide) (by decide)).2.1
     ⟨4, [⟨1, 1⟩, ⟨1, 2⟩, ⟨1, 3⟩, ⟨2, 3⟩, ⟨3, 3⟩], by decide, by decide⟩⟩

/-- Claim C8. `playSound` with the subsystem uninitialized, or with a name
that has no cached buffer, performs no audio-graph action at all (no node
creation, no device write); the function is total, so nothing is raised to
the caller. -/
theorem C8_theorem (st : Audio.AudioState) (name : String) (pan : Rat)
    (h : st.isInitialized = false ∨ st.sounds.contains name = false) :
    Audio.playSound st name pan = [] := by
  unfold Audio.playSound
  rcases h with h | h
  · rw [h]
    rfl
  · rw [h]
    cases hI : st.isInitialized <;> rfl

/-- Claim C8, witness: playing "nonexistent-effect" on an initialized
stage with the full cached-sound set is a no-op. -/
theorem C8_witness :
    ((⟨true, Audio.soundNames⟩ : Audio.AudioState).sounds.contains
      "nonexistent-effect") = false ∧
    Audio.playSound ⟨true, Audio.soundNames⟩ "nonexistent-effect" 0 = [] :=
  ⟨by decide, C8_theorem ⟨true, Audio.soundNames⟩ "nonexistent-effect" 0
    (Or.inr (by decide))⟩

/-- Claim C9. In every outcome of either variant, `hitWall` is exactly the
negation of `success`. -/
theorem C9_theorem (st : GameState) (dir : Direction) :
    (GL1.movePlayer st dir).2.hitWall =
      !(GL1.movePlayer st dir).2.success ∧
    (GL2.movePlayer st dir).2.hitWall =
      !(GL2.movePlayer st dir).2.success := by
  constructor
  · cases h : GL1.hitWallB st dir with
    | true => rw [GL1_movePlayer_blocked st dir h]; rfl
    | false => rw [GL1_movePlayer_advanced st dir h]; rfl
  · cases h : GL2.hitWallB st dir with
    | true => rw [GL2_movePlayer_blocked st dir h]; rfl
    | false => rw [GL2_movePlayer_advanced st dir h]; rfl

/-- Claim C10. Both carvers keep the whole outer ring (row 0, row
`height-1`, column 0, column `width-1`) as WALL. -/
theorem C10_theorem (rng : Nat → Nat) (w1 h1 w2 h2 : Nat)
    (ha : 2 ≤ w1) (hb : 2 ≤ h1) (hc : 3 ≤ w2) (hd : 3 ≤ h2) :
    (∀ x y : Int, 0 ≤ x → x < (GL1.coerceOdd w1 : Int) → 0 ≤ y →
      y < (GL1.coerceOdd h1 : Int) →
      (x = 0 ∨ x = (GL1.coerceOdd w1 : Int) - 1 ∨ y = 0 ∨
        y = (GL1.coerceOdd h1 : Int) - 1) →
      mread (GL1.generateMaze rng w1 h1) x y = CELL_WALL) ∧
    (∀ x y : Int, 0 ≤ x → x < (w2 : Int) → 0 ≤ y → y < (h2 : Int) →
      (x = 0 ∨ x = (w2 : Int) - 1 ∨ y = 0 ∨ y = (h2 : Int) - 1) →
      mread (GL2.generateMaze w2 h2) x y = CELL_WALL) :=
  ⟨(generateMaze_main rng w1 h1 ha hb).2.2.2,
   (GL2_maze_main w2 h2 hc hd).2.2.2.2⟩

/-- Claim C10, witness: a corner of a GL1 grid and a right-border cell of
a GL2 grid. -/
theorem C10_witness :
    mread (GL1.generateMaze rng0 4 4) 0 0 = CELL_WALL ∧
    mread (GL2.generateMaze 7 7) 6 3 = CELL_WALL :=
  ⟨(C10_theorem rng0 4 4 7 7 (by decide) (by decide) (by decide)
      (by decide)).1 0 0 (by decide) (by decide) (by decide) (by decide)
      (by decide),
   (C10_theorem rng0 4 4 7 7 (by decide) (by decide) (by decide)
      (by decide)).2 6 3 (by decide) (by decide) (by decide) (by decide)
      (by decide)⟩

end EchoQuest
